import Mathlib

/-!
# Inverted index generator

A shallow embedding of `invertedindex/invertedindex.go` and a verification of
its tokenizer, index construction and lookup.

Modelling conventions.

* A Go `string` is a Lean `String` (a sequence of runes; the model covers valid
  UTF-8 text).  `strings.ToLower` maps `unicode.ToLower` over the runes of its
  argument; the rune table belongs to the Go standard library, so it is the
  parameter `lower : Char → Char` of every definition that lowercases.
  `Char.toLower` (the ASCII table) is used for concrete inputs.
* A `panic` is `Except.error` carrying the panic message.
* A Go map is an association list.  The order in which a `range` statement
  visits a map is not fixed by the language, so the two builders take the
  enumeration chosen by the runtime as the argument `range`; an admissible
  `range` returns a permutation of the map it is given.
* `InvertedIndex.Items` holds the entries themselves.  Every entry is allocated
  by `AddItem` at the moment it is appended to `Items`, so a pointer stored in
  `HashMap` is represented by the position of that entry in `Items`.  The code
  only compares these pointers with nil, so `HashMap` is `none` for the nil map
  of the zero-value struct and otherwise a list of bindings of a key to `none`
  (the nil pointer) or to `some` position.
* Go's `int` is `Int` and a slice is a list of any length: document ids are
  only stored and compared, and on an index built from `CreateInvertedIndex`
  `Frequency` counts calls of `AddItem`, which stay below the largest `int` on
  every input that fits in memory.  `Frequency++` is therefore `+ 1`; on a
  hand-built entry whose `Frequency` is the largest `int`, `2^63 - 1`, Go wraps
  around, and a statement about arbitrary indexes excludes that entry.
-/

namespace invertedindex

/-! ## Data model -/

/-- The struct `InvertedIndexEntry`. -/
structure InvertedIndexEntry where
  Term : String
  Frequency : Int
  DocumentListing : List Int
deriving DecidableEq

/-- The struct `InvertedIndex`: `HashMap` is `none` for the nil map and otherwise the list
of its bindings, each of a term to the nil pointer (`none`) or to the position in `Items` of
an entry; `Items` is the slice of entries. -/
structure InvertedIndex where
  HashMap : Option (List (String × Option Nat))
  Items : List InvertedIndexEntry
deriving DecidableEq

/-- The binding of a key in a list of bindings; the first binding of a key is the one in
force. -/
def mapFind : List (String × Option Nat) → String → Option (Option Nat)
  | [], _ => none
  | (k, v) :: rest, key => if k = key then some v else mapFind rest key

/-- Map lookup `m[k]`: the pointer bound to the key, and the nil pointer `none` when the map
is nil or the key is absent. -/
def mapGet (m : Option (List (String × Option Nat))) (key : String) : Option Nat :=
  match m with
  | none => none
  | some bindings =>
    match mapFind bindings key with
    | none => none
    | some pointer => pointer

/-- The test `_, ok := m[k]`: the key is bound in the map, to nil or to an entry. -/
def mapHas (m : Option (List (String × Option Nat))) (key : String) : Bool :=
  match m with
  | none => false
  | some bindings => (mapFind bindings key).isSome

/-- Map assignment `m[k] = v` on an allocated map: the binding of the key is replaced. -/
def mapSet (bindings : List (String × Option Nat)) (key : String) (v : Option Nat) :
    List (String × Option Nat) :=
  (key, v) :: bindings.filter (fun b => decide (b.1 ≠ key))

/-- The loop of `FindItem`, started at position `index`. -/
def FindItem.scan (Term : String) : List InvertedIndexEntry → Nat → Except String Nat
  | [], _ => .error "Not Found"
  | item :: rest, index =>
    if item.Term = Term then .ok index else FindItem.scan Term rest (index + 1)

/-- `FindItem`: position of the first item with the given term, panic when there is none. -/
def FindItem (invertedIndex : InvertedIndex) (Term : String) : Except String Nat :=
  FindItem.scan Term invertedIndex.Items 0

/-- `AddItem`: update the entry of a term the hash map binds to an entry, otherwise create
an entry, bind the term to it (a panic on the nil map) and append it. -/
def AddItem (invertedIndex : InvertedIndex) (Term : String) (Document : Int) :
    Except String InvertedIndex :=
  if (mapGet invertedIndex.HashMap Term).isSome then
    match FindItem invertedIndex Term with
    | .error msg => .error msg
    | .ok FoundItemPosition =>
      match invertedIndex.Items[FoundItemPosition]? with
      | none => .error "index out of range"
      | some item =>
        .ok { invertedIndex with
              Items := invertedIndex.Items.set FoundItemPosition
                { item with
                  Frequency := item.Frequency + 1
                  DocumentListing := item.DocumentListing ++ [Document] } }
  else
    match invertedIndex.HashMap with
    | none => .error "assignment to entry in nil map"
    | some bindings =>
      .ok { HashMap := some (mapSet bindings Term (some invertedIndex.Items.length))
            Items := invertedIndex.Items ++ [⟨Term, 1, [Document]⟩] }

/-- `CreateInvertedIndex`: the empty index, with an allocated map. -/
def CreateInvertedIndex : InvertedIndex := ⟨some [], []⟩

/-- A sequence of `AddItem` calls, stopping at the first panic. -/
def AddItems : InvertedIndex → List (String × Int) → Except String InvertedIndex
  | invertedIndex, [] => .ok invertedIndex
  | invertedIndex, (Term, Document) :: rest =>
    match AddItem invertedIndex Term Document with
    | .error msg => .error msg
    | .ok next => AddItems next rest

/-! ## Tokenizer -/

/-- The loop shared by `RemoveDuplicates` and `RemoveDuplicateListings`: the state is the
pair `(keys, unique)`. -/
def uniqueLoop {α : Type} [DecidableEq α] (l : List α) : List α × List α :=
  l.foldl (fun st entry => if entry ∈ st.1 then st else (entry :: st.1, st.2 ++ [entry]))
    ([], [])

/-- `RemoveDuplicates`. -/
def RemoveDuplicates (wordList : List String) : List String := (uniqueLoop wordList).2

/-- `RemoveDuplicateListings`. -/
def RemoveDuplicateListings (ids : List Int) : List Int := (uniqueLoop ids).2

/-- `strings.ToLower` over the rune table `lower`. -/
def ToLower (lower : Char → Char) (s : String) : String := ⟨s.data.map lower⟩

/-- `Preprocessing`: append the lowercase form of each word. -/
def Preprocessing (lower : Char → Char) (wordList : List String) : List String :=
  wordList.foldl (fun ProcessedWordList word => ProcessedWordList ++ [ToLower lower word]) []

/-- The class `\s` of Go regular expressions: tab, line feed, form feed, carriage return,
space. -/
def isSpace (c : Char) : Bool :=
  c.toNat = 9 || c.toNat = 10 || c.toNat = 12 || c.toNat = 13 || c.toNat = 32

/-- Matching `[^\s]+` repeatedly from the left; `run` is the match in progress. -/
def FindAllString.scan : List Char → List Char → List String
  | [], run => if run = [] then [] else [⟨run⟩]
  | c :: rest, run =>
    if isSpace c then
      if run = [] then FindAllString.scan rest [] else ⟨run⟩ :: FindAllString.scan rest []
    else FindAllString.scan rest (run ++ [c])

/-- The call `r.FindAllString(Doc, -1)` for `r = [^\s]+`. -/
def FindAllString (Doc : String) : List String := FindAllString.scan Doc.data []

/-- `Tokenize`. -/
def Tokenize (lower : Char → Char) (Doc : String) : List String :=
  RemoveDuplicates (Preprocessing lower (FindAllString Doc))

/-! ## Builders -/

/-- `GenerateDocMap`: the `map[string]bool` of a token list, as the list of its keys (every
value is `true`). -/
def GenerateDocMap (token : List String) : List String :=
  token.foldl (fun docMap word => if word ∈ docMap then docMap else docMap ++ [word]) []

/-- The second loop of `GenerateInvertedIndex`; `range DocMapIndex DocMap` is the order in
which the inner `range` statement visits the keys of `DocMap`. -/
def GenerateInvertedIndex.addAll (range : Nat → List String → List String) :
    List (List String) → Nat → InvertedIndex → Except String InvertedIndex
  | [], _, invertedIndex => .ok invertedIndex
  | DocMap :: rest, DocMapIndex, invertedIndex =>
    match AddItems invertedIndex
        ((range DocMapIndex DocMap).map (fun DocEntry => (DocEntry, (DocMapIndex : Int)))) with
    | .error msg => .error msg
    | .ok next => GenerateInvertedIndex.addAll range rest (DocMapIndex + 1) next

/-- `GenerateInvertedIndex`. -/
def GenerateInvertedIndex (lower : Char → Char) (range : Nat → List String → List String)
    (DocList : List String) : Except String InvertedIndex :=
  GenerateInvertedIndex.addAll range
    (DocList.foldl (fun globalDocMap Doc => globalDocMap ++ [GenerateDocMap (Tokenize lower Doc)])
      [])
    0 CreateInvertedIndex

/-- An admissible enumeration of the per-document maps: each map is visited key by key,
every key once. -/
def KeyOrder (range : Nat → List String → List String) : Prop :=
  ∀ i m, (range i m).Perm m

/-- The struct `DocMapWithId`. -/
structure DocMapWithId where
  Term : String
  DocId : Int
deriving DecidableEq

/-- `GenerateInvertedIndexWithPreExistingIds`; `range Docs` is the order in which the outer
`range` statement visits the entries of the map `Docs`. -/
def GenerateInvertedIndexWithPreExistingIds
    (range : List (Int × List String) → List (Int × List String))
    (Docs : List (Int × List String)) : Except String InvertedIndex :=
  let globalDocMap : List DocMapWithId :=
    (range Docs).foldl
      (fun acc kv => kv.2.foldl (fun acc2 t => acc2 ++ [DocMapWithId.mk t kv.1]) acc) []
  match AddItems CreateInvertedIndex (globalDocMap.map (fun Doc => (Doc.Term, Doc.DocId))) with
  | .error msg => .error msg
  | .ok invertedIndex =>
    .ok { invertedIndex with
          Items := invertedIndex.Items.map (fun item =>
            { item with DocumentListing := RemoveDuplicateListings item.DocumentListing }) }

/-- A well-formed `map[int][]string`: no document id is bound twice. -/
def DocsMap (Docs : List (Int × List String)) : Prop := (Docs.map Prod.fst).Nodup

/-- The term sequence `Docs[k]` of document `k`. -/
def docsGet : List (Int × List String) → Int → Option (List String)
  | [], _ => none
  | (k, v) :: rest, key => if k = key then some v else docsGet rest key

/-! ## Query -/

/-- The line printed by `Find`. -/
inductive FindOutput where
  | Found (searchTerm : String) (documents : List Int)
  | NotFound (searchTerm : String)
deriving DecidableEq

/-- `Find`: the search term is lowercased for the lookup and echoed as given. -/
def Find (lower : Char → Char) (index : InvertedIndex) (searchTerm : String) :
    Except String FindOutput :=
  if (mapGet index.HashMap (ToLower lower searchTerm)).isSome then
    match FindItem index (ToLower lower searchTerm) with
    | .error msg => .error msg
    | .ok itemPosition =>
      match index.Items[itemPosition]? with
      | none => .error "index out of range"
      | some item => .ok (.Found searchTerm item.DocumentListing)
  else
    .ok (.NotFound searchTerm)

/-! ## Notions used in the statements -/

/-- The document ids passed to `AddItem` together with the term `t`, in call order. -/
def postings (calls : List (String × Int)) (t : String) : List Int :=
  (calls.filter (fun c => decide (c.1 = t))).map Prod.snd

/-- The entries of `items` whose term is `t`. -/
def entriesOf (items : List InvertedIndexEntry) (t : String) : List InvertedIndexEntry :=
  items.filter (fun item => decide (item.Term = t))

/-- The terms of a list of entries, in order. -/
def terms (items : List InvertedIndexEntry) : List String := items.map (fun item => item.Term)

/-- The hash map is allocated and binds no key to the nil pointer. -/
def HashMapSound (invertedIndex : InvertedIndex) : Prop :=
  ∃ bindings, invertedIndex.HashMap = some bindings ∧ ∀ b ∈ bindings, b.2.isSome = true

/-- The hash map is allocated, binds no key to nil, and binds the terms of the item list. -/
def Agree (invertedIndex : InvertedIndex) : Prop :=
  HashMapSound invertedIndex ∧
    ∀ t, (mapGet invertedIndex.HashMap t).isSome = true ↔ t ∈ terms invertedIndex.Items

/-- Effect of the first branch of `AddItem` on the item list: the first entry with the term
is updated in place. -/
def bump (Term : String) (Document : Int) : List InvertedIndexEntry → List InvertedIndexEntry
  | [] => []
  | item :: rest =>
    if item.Term = Term then
      { item with
        Frequency := item.Frequency + 1
        DocumentListing := item.DocumentListing ++ [Document] } :: rest
    else item :: bump Term Document rest

/-- Effect of `AddItem` on the item list of an index whose hash map agrees with it. -/
def addEntry (items : List InvertedIndexEntry) (call : String × Int) : List InvertedIndexEntry :=
  if call.1 ∈ terms items then bump call.1 call.2 items
  else items ++ [⟨call.1, 1, [call.2]⟩]

/-- The item list after the calls `AddItem t₁ d₁, …, AddItem tₙ dₙ` on the empty index. -/
def itemsAfter (calls : List (String × Int)) : List InvertedIndexEntry :=
  calls.foldl addEntry []

/-- The calls of `AddItem` made by `GenerateInvertedIndexWithPreExistingIds` when the map is
visited in the order `order`. -/
def callsWithIds (order : List (Int × List String)) : List (String × Int) :=
  order.flatMap (fun kv => kv.2.map (fun t => (t, kv.1)))

/-- The calls of `AddItem` made by the second loop of `GenerateInvertedIndex` on the maps
`maps`, the first of which has index `k`. -/
def callsOfDocs (range : Nat → List String → List String) :
    List (List String) → Nat → List (String × Int)
  | [], _ => []
  | DocMap :: rest, k =>
    (range k DocMap).map (fun DocEntry => (DocEntry, (k : Int))) ++ callsOfDocs range rest (k + 1)

/-- The keys visited by the second loop of `GenerateInvertedIndex` on the maps `maps`, the
first of which has index `k`: document after document, each map in the order `range` gives. -/
def visited (range : Nat → List String → List String) : List (List String) → Nat → List String
  | [], _ => []
  | DocMap :: rest, k => range k DocMap ++ visited range rest (k + 1)

/-- What a caller learns from the line printed by `Find`, the echoed search term apart: the
document listing when the term was found. -/
def FindOutput.outcome : FindOutput → Option (List Int)
  | .Found _ documents => some documents
  | .NotFound _ => none

/-- A maximal run of non-whitespace characters of `Doc`: a non-empty block `w` of
non-whitespace characters that is preceded by the start of `Doc` or a whitespace character and
followed by the end of `Doc` or a whitespace character. -/
def IsMaximalRun (Doc w : List Char) : Prop :=
  w ≠ [] ∧ (∀ c ∈ w, isSpace c = false) ∧
    ∃ pre post, Doc = pre ++ w ++ post ∧
      (pre = [] ∨ ∃ p c, pre = p ++ [c] ∧ isSpace c = true) ∧
      (post = [] ∨ ∃ c q, post = c :: q ∧ isSpace c = true)

/-- The invariant of an index: the keys of the hash map are the terms of the items, and no
term occurs in two items. -/
def IndexInvariant (invertedIndex : InvertedIndex) : Prop :=
  (∀ t, mapHas invertedIndex.HashMap t = true ↔ t ∈ terms invertedIndex.Items) ∧
    (terms invertedIndex.Items).Nodup

/-- The subsequence of a list that keeps each element at its first occurrence: an element is
kept when it does not occur among the elements `seen` before it. -/
def keepFirst {α : Type} [DecidableEq α] : List α → List α → List α
  | _, [] => []
  | seen, x :: rest =>
    if x ∈ seen then keepFirst (seen ++ [x]) rest else x :: keepFirst (seen ++ [x]) rest

/-- The variable `wordListTest` of the test file. -/
def wordListTest : List String :=
  ["new", "HOme", "sales", "top", "forecasts",
   "home", "sales", "rise", "in", "July",
   "increase", "in", "home", "SALES", "in",
   "July", "new", "home", "sales", "rise", "July"]

/-! ## Removing duplicates -/

section unique
variable {α : Type} [DecidableEq α]

theorem uniqueLoop_nil : uniqueLoop ([] : List α) = ([], []) := rfl

theorem uniqueLoop_snoc (l : List α) (x : α) :
    uniqueLoop (l ++ [x]) =
      if x ∈ (uniqueLoop l).1 then uniqueLoop l
      else (x :: (uniqueLoop l).1, (uniqueLoop l).2 ++ [x]) := by
  simp [uniqueLoop, List.foldl_append]

theorem uniqueLoop_fst_mem (l : List α) : ∀ x, x ∈ (uniqueLoop l).1 ↔ x ∈ l := by
  induction l using List.reverseRecOn with
  | nil => simp [uniqueLoop_nil]
  | append_singleton l y ih =>
    intro x
    rw [uniqueLoop_snoc]
    by_cases hy : y ∈ (uniqueLoop l).1
    · rw [if_pos hy, ih, List.mem_append, List.mem_singleton]
      constructor
      · exact Or.inl
      · rintro (h | h)
        · exact h
        · rw [h]; exact (ih y).1 hy
    · rw [if_neg hy]
      simp [ih, or_comm]

theorem uniqueLoop_snd_snoc (l : List α) (x : α) :
    (uniqueLoop (l ++ [x])).2 = if x ∈ l then (uniqueLoop l).2 else (uniqueLoop l).2 ++ [x] := by
  rw [uniqueLoop_snoc]
  by_cases hx : x ∈ l
  · rw [if_pos ((uniqueLoop_fst_mem l x).2 hx), if_pos hx]
  · rw [if_neg (fun h => hx ((uniqueLoop_fst_mem l x).1 h)), if_neg hx]

theorem uniqueLoop_snd_mem (l : List α) : ∀ x, x ∈ (uniqueLoop l).2 ↔ x ∈ l := by
  induction l using List.reverseRecOn with
  | nil => simp [uniqueLoop_nil]
  | append_singleton l y ih =>
    intro x
    rw [uniqueLoop_snd_snoc]
    by_cases hy : y ∈ l
    · rw [if_pos hy, ih, List.mem_append, List.mem_singleton]
      constructor
      · exact Or.inl
      · rintro (h | h)
        · exact h
        · rw [h]; exact hy
    · rw [if_neg hy]
      simp [ih]

theorem uniqueLoop_snd_nodup (l : List α) : (uniqueLoop l).2.Nodup := by
  induction l using List.reverseRecOn with
  | nil => simp [uniqueLoop_nil]
  | append_singleton l y ih =>
    rw [uniqueLoop_snd_snoc]
    by_cases hy : y ∈ l
    · rw [if_pos hy]; exact ih
    · rw [if_neg hy]
      refine List.Nodup.append ih (List.nodup_singleton y) ?_
      intro a ha hay
      rw [List.mem_singleton] at hay
      subst hay
      exact hy ((uniqueLoop_snd_mem l a).1 ha)

theorem uniqueLoop_snd_length_le (l : List α) : (uniqueLoop l).2.length ≤ l.length := by
  induction l using List.reverseRecOn with
  | nil => simp [uniqueLoop_nil]
  | append_singleton l y ih =>
    rw [uniqueLoop_snd_snoc]
    by_cases hy : y ∈ l
    · rw [if_pos hy]; simp; omega
    · rw [if_neg hy]; simp; omega

theorem uniqueLoop_snd_of_nodup (l : List α) (h : l.Nodup) : (uniqueLoop l).2 = l := by
  induction l using List.reverseRecOn with
  | nil => simp [uniqueLoop_nil]
  | append_singleton l y ih =>
    rw [uniqueLoop_snd_snoc]
    have h2 := List.nodup_append.1 h
    have hy : y ∉ l := fun hy => h2.2.2 hy (List.mem_singleton_self y)
    rw [if_neg hy, ih h2.1]

/-- First-occurrence order: earlier elements of the result occur earlier in the input. -/
theorem uniqueLoop_snd_order (l : List α) :
    (uniqueLoop l).2.Pairwise (fun a b => l.indexOf a < l.indexOf b) := by
  induction l using List.reverseRecOn with
  | nil => simp [uniqueLoop_nil]
  | append_singleton l y ih =>
    rw [uniqueLoop_snd_snoc]
    have hmono : (uniqueLoop l).2.Pairwise
        (fun a b => (l ++ [y]).indexOf a < (l ++ [y]).indexOf b) := by
      refine List.Pairwise.imp_of_mem ?_ ih
      intro a b ha hb hab
      rw [List.indexOf_append_of_mem ((uniqueLoop_snd_mem l a).1 ha),
        List.indexOf_append_of_mem ((uniqueLoop_snd_mem l b).1 hb)]
      exact hab
    by_cases hy : y ∈ l
    · rw [if_pos hy]; exact hmono
    · rw [if_neg hy]
      refine List.pairwise_append.2 ⟨hmono, List.pairwise_singleton _ _, ?_⟩
      intro a ha b hb
      rw [List.mem_singleton] at hb
      subst hb
      have hal : a ∈ l := (uniqueLoop_snd_mem l a).1 ha
      rw [List.indexOf_append_of_mem hal, List.indexOf_append_of_not_mem hy]
      have := List.indexOf_lt_length.2 hal
      simp
      omega

end unique

/-! ## `AddItem` on an index whose hash map agrees with its items -/

theorem terms_bump (t : String) (d : Int) (items : List InvertedIndexEntry) :
    terms (bump t d items) = terms items := by
  induction items with
  | nil => rfl
  | cons e rest ih =>
    unfold bump
    by_cases h : e.Term = t
    · simp [h, terms]
    · simp only [if_neg h]
      simp only [terms, List.map_cons] at ih ⊢
      rw [ih]

theorem terms_addEntry (items : List InvertedIndexEntry) (c : String × Int) :
    terms (addEntry items c) = if c.1 ∈ terms items then terms items else terms items ++ [c.1] := by
  unfold addEntry
  by_cases h : c.1 ∈ terms items
  · rw [if_pos h, if_pos h, terms_bump]
  · rw [if_neg h, if_neg h]; simp [terms]

/-- The scan of `FindItem` finds the first entry with the term, and updating that position is
`bump`. -/
theorem scan_of_mem (t : String) (d : Int) (items : List InvertedIndexEntry)
    (h : t ∈ terms items) (k : Nat) :
    ∃ pos item, FindItem.scan t items k = .ok (k + pos) ∧ items[pos]? = some item ∧
      item.Term = t ∧
      items.set pos { item with Frequency := item.Frequency + 1
                                DocumentListing := item.DocumentListing ++ [d] } = bump t d items ∧
      items.find? (fun e => decide (e.Term = t)) = some item := by
  induction items generalizing k with
  | nil => simp [terms] at h
  | cons e rest ih =>
    by_cases he : e.Term = t
    · refine ⟨0, e, ?_, by simp, he, ?_, ?_⟩
      · simp [FindItem.scan, he]
      · simp [bump, he]
      · simp [he]
    · have h2 : t ∈ terms rest := by
        simp only [terms, List.map_cons, List.mem_cons] at h
        rcases h with h | h
        · exact absurd h.symm he
        · exact h
      obtain ⟨pos, item, h1, h3, h4, h5, h6⟩ := ih h2 (k + 1)
      refine ⟨pos + 1, item, ?_, ?_, h4, ?_, ?_⟩
      · simp only [FindItem.scan, if_neg he, h1]
        congr 1; omega
      · simpa using h3
      · simp only [List.set_cons_succ, bump, if_neg he, h5]
      · simp [he, h6]

theorem mapGet_cons (t : String) (v : Option Nat) (bindings : List (String × Option Nat))
    (t2 : String) :
    mapGet (some ((t, v) :: bindings)) t2 = if t = t2 then v else mapGet (some bindings) t2 := by
  by_cases h : t = t2 <;> simp [mapGet, mapFind, h]

theorem mapHas_cons (t : String) (v : Option Nat) (bindings : List (String × Option Nat))
    (t2 : String) :
    mapHas (some ((t, v) :: bindings)) t2 =
      if t = t2 then true else mapHas (some bindings) t2 := by
  by_cases h : t = t2 <;> simp [mapHas, mapFind, h]

theorem mapFind_filter (bindings : List (String × Option Nat)) (t t2 : String) :
    mapFind (bindings.filter (fun b => decide (b.1 ≠ t))) t2 =
      if t = t2 then none else mapFind bindings t2 := by
  induction bindings with
  | nil => simp [mapFind]
  | cons b rest ih =>
    obtain ⟨k, v⟩ := b
    rw [List.filter_cons]
    by_cases hk : k = t
    · have hd : decide ((k, v).1 ≠ t) = false := by simp [hk]
      rw [hd, if_neg (by simp), ih]
      by_cases ht : t = t2
      · rw [if_pos ht, if_pos ht]
      · have hk2 : ¬ k = t2 := fun h => ht (hk ▸ h)
        rw [if_neg ht, if_neg ht, mapFind, if_neg hk2]
    · have hd : decide ((k, v).1 ≠ t) = true := by simp [hk]
      rw [hd, if_pos rfl, mapFind, ih, mapFind]
      by_cases ht : t = t2
      · have hk2 : ¬ k = t2 := fun h => hk (h.trans ht.symm)
        rw [if_pos ht, if_neg hk2, if_pos ht]
      · rw [if_neg ht, if_neg ht]

theorem mapGet_set (bindings : List (String × Option Nat)) (t : String) (v : Option Nat)
    (t2 : String) :
    mapGet (some (mapSet bindings t v)) t2 = if t = t2 then v else mapGet (some bindings) t2 := by
  unfold mapSet
  rw [mapGet_cons]
  by_cases h : t = t2
  · rw [if_pos h, if_pos h]
  · rw [if_neg h, if_neg h]
    simp only [mapGet, mapFind_filter, if_neg h]

theorem mapHas_set (bindings : List (String × Option Nat)) (t : String) (v : Option Nat)
    (t2 : String) :
    mapHas (some (mapSet bindings t v)) t2 =
      if t = t2 then true else mapHas (some bindings) t2 := by
  unfold mapSet
  rw [mapHas_cons]
  by_cases h : t = t2
  · rw [if_pos h, if_pos h]
  · rw [if_neg h, if_neg h]
    simp only [mapHas, mapFind_filter, if_neg h]

/-- In a map without nil bindings a key is bound exactly when the lookup is not nil. -/
theorem mapHas_iff_of_sound (bindings : List (String × Option Nat))
    (h : ∀ b ∈ bindings, b.2.isSome = true) (t : String) :
    mapHas (some bindings) t = true ↔ (mapGet (some bindings) t).isSome = true := by
  induction bindings with
  | nil => simp [mapHas, mapGet, mapFind]
  | cons b rest ih =>
    obtain ⟨k, v⟩ := b
    rw [mapHas_cons, mapGet_cons]
    by_cases hk : k = t
    · rw [if_pos hk, if_pos hk]
      have := h (k, v) (List.mem_cons_self _ _)
      simp only at this
      simp [this]
    · rw [if_neg hk, if_neg hk]
      exact ih (fun b hb => h b (List.mem_cons_of_mem _ hb))

theorem AddItem_of_agree (idx : InvertedIndex) (hA : Agree idx) (t : String) (d : Int) :
    ∃ next, AddItem idx t d = .ok next ∧ Agree next ∧ next.Items = addEntry idx.Items (t, d) := by
  obtain ⟨⟨bindings, hb1, hb2⟩, hA2⟩ := hA
  by_cases h : t ∈ terms idx.Items
  · obtain ⟨pos, item, h1, h3, -, h5, -⟩ := scan_of_mem t d idx.Items h 0
    refine ⟨{ idx with Items := bump t d idx.Items }, ?_, ⟨⟨bindings, hb1, hb2⟩, ?_⟩, ?_⟩
    · unfold AddItem
      rw [if_pos ((hA2 t).2 h)]
      unfold FindItem
      rw [h1]
      simp only [Nat.zero_add, h3, h5]
    · intro t2
      simp only [terms_bump]
      exact hA2 t2
    · simp [addEntry, h]
  · refine ⟨⟨some (mapSet bindings t (some idx.Items.length)), idx.Items ++ [⟨t, 1, [d]⟩]⟩, ?_,
      ⟨⟨_, rfl, ?_⟩, ?_⟩, ?_⟩
    · unfold AddItem
      rw [if_neg (fun hs => h ((hA2 t).1 hs)), hb1]
    · intro b hb
      rcases List.mem_cons.1 hb with hb3 | hb3
      · rw [hb3]; rfl
      · exact hb2 b (List.mem_filter.1 hb3).1
    · intro t2
      simp only [mapGet_set, terms, List.map_append, List.map_cons, List.map_nil,
        List.mem_append, List.mem_singleton]
      by_cases ht : t = t2
      · simp [ht]
      · rw [if_neg ht]
        have := hA2 t2
        simp only [terms, hb1] at this
        rw [this]
        constructor
        · exact Or.inl
        · rintro (h1 | h1)
          · exact h1
          · exact absurd h1.symm ht
    · simp [addEntry, h]

theorem AddItems_of_agree (calls : List (String × Int)) :
    ∀ idx : InvertedIndex, Agree idx →
      ∃ next, AddItems idx calls = .ok next ∧ Agree next ∧
        next.Items = calls.foldl addEntry idx.Items := by
  induction calls with
  | nil => intro idx hA; exact ⟨idx, rfl, hA, rfl⟩
  | cons c rest ih =>
    intro idx hA
    obtain ⟨t, d⟩ := c
    obtain ⟨mid, h1, h2, h3⟩ := AddItem_of_agree idx hA t d
    obtain ⟨next, h4, h5, h6⟩ := ih mid h2
    refine ⟨next, ?_, h5, ?_⟩
    · simp only [AddItems, h1, h4]
    · rw [h6, h3]; rfl

theorem agree_create : Agree CreateInvertedIndex := by
  refine ⟨⟨[], rfl, by simp⟩, ?_⟩
  intro t; simp [CreateInvertedIndex, mapGet, mapFind, terms]

theorem mapHas_of_mapGet (m : Option (List (String × Option Nat))) (t : String)
    (h : (mapGet m t).isSome = true) : mapHas m t = true := by
  cases m with
  | none => simp [mapGet] at h
  | some bindings =>
    cases hf : mapFind bindings t with
    | none => simp [mapGet, hf] at h
    | some v => simp [mapHas, hf]

theorem agree_of_invariant (idx : InvertedIndex) (hI : IndexInvariant idx)
    (hS : HashMapSound idx) : Agree idx := by
  refine ⟨hS, ?_⟩
  obtain ⟨bindings, hb1, hb2⟩ := hS
  intro t
  rw [← hI.1 t, hb1]
  exact (mapHas_iff_of_sound bindings hb2 t).symm

theorem AddItems_append (a b : List (String × Int)) :
    ∀ idx : InvertedIndex, AddItems idx (a ++ b) =
      match AddItems idx a with
      | .error msg => .error msg
      | .ok mid => AddItems mid b := by
  induction a with
  | nil => intro idx; rfl
  | cons c rest ih =>
    intro idx
    obtain ⟨t, d⟩ := c
    simp only [List.cons_append, AddItems]
    cases h : AddItem idx t d with
    | error msg => rfl
    | ok mid => exact ih mid

/-! ## The item list after a sequence of calls -/

theorem itemsAfter_snoc (calls : List (String × Int)) (c : String × Int) :
    itemsAfter (calls ++ [c]) = addEntry (itemsAfter calls) c := by
  simp [itemsAfter, List.foldl_append]

theorem terms_itemsAfter (calls : List (String × Int)) :
    terms (itemsAfter calls) = RemoveDuplicates (calls.map Prod.fst) := by
  induction calls using List.reverseRecOn with
  | nil => rfl
  | append_singleton cs c ih =>
    rw [itemsAfter_snoc, terms_addEntry, ih]
    simp only [RemoveDuplicates, List.map_append, List.map_cons, List.map_nil,
      uniqueLoop_snd_snoc, uniqueLoop_snd_mem]

theorem mem_terms_itemsAfter (calls : List (String × Int)) (t : String) :
    t ∈ terms (itemsAfter calls) ↔ t ∈ calls.map Prod.fst := by
  rw [terms_itemsAfter]; exact uniqueLoop_snd_mem _ t

theorem nodup_terms_itemsAfter (calls : List (String × Int)) :
    (terms (itemsAfter calls)).Nodup := by
  rw [terms_itemsAfter]; exact uniqueLoop_snd_nodup _

theorem find_bump (t : String) (d : Int) (t2 : String) (items : List InvertedIndexEntry) :
    (bump t d items).find? (fun e => decide (e.Term = t2)) =
      if t2 = t then
        (items.find? (fun e => decide (e.Term = t))).map (fun item =>
          { item with Frequency := item.Frequency + 1
                      DocumentListing := item.DocumentListing ++ [d] })
      else items.find? (fun e => decide (e.Term = t2)) := by
  induction items with
  | nil => simp [bump]
  | cons e rest ih =>
    unfold bump
    by_cases he : e.Term = t
    · by_cases h2 : t2 = t
      · simp [he, h2]
      · have : ¬ t = t2 := fun h => h2 h.symm
        simp [he, h2, this]
    · rw [if_neg he]
      by_cases h2 : t2 = t
      · subst h2
        simp only [List.find?_cons, he, decide_False, if_true] at ih ⊢
        exact ih
      · simp only [if_neg h2] at ih ⊢
        simp only [List.find?_cons, ih]

theorem postings_snoc (calls : List (String × Int)) (c : String × Int) (t : String) :
    postings (calls ++ [c]) t = postings calls t ++ (if c.1 = t then [c.2] else []) := by
  unfold postings
  by_cases h : c.1 = t <;> simp [List.filter_append, h]

theorem postings_append (a b : List (String × Int)) (t : String) :
    postings (a ++ b) t = postings a t ++ postings b t := by
  simp [postings, List.filter_append]

theorem postings_eq_nil (calls : List (String × Int)) (t : String) :
    postings calls t = [] ↔ t ∉ calls.map Prod.fst := by
  simp only [postings, List.map_eq_nil_iff, List.filter_eq_nil_iff, List.mem_map, not_exists,
    not_and, decide_eq_true_eq]

/-- The entry of a term after a sequence of calls on the empty index. -/
theorem find_itemsAfter (calls : List (String × Int)) (t : String) :
    (itemsAfter calls).find? (fun e => decide (e.Term = t)) =
      if t ∈ calls.map Prod.fst then
        some ⟨t, ((postings calls t).length : Int), postings calls t⟩
      else none := by
  induction calls using List.reverseRecOn with
  | nil => simp [itemsAfter]
  | append_singleton cs c ih =>
    have hmem : t ∈ (cs ++ [c]).map Prod.fst ↔ (t ∈ cs.map Prod.fst ∨ t = c.1) := by
      rw [List.map_append, List.mem_append, List.map_singleton, List.mem_singleton]
    rw [itemsAfter_snoc, postings_snoc]
    unfold addEntry
    by_cases hc : c.1 ∈ terms (itemsAfter cs)
    · rw [if_pos hc, find_bump]
      have hc2 := (mem_terms_itemsAfter cs c.1).1 hc
      by_cases ht : t = c.1
      · subst ht
        rw [if_pos rfl, if_pos (hmem.2 (Or.inr rfl))]
        have ih2 := ih
        rw [if_pos hc2] at ih2
        rw [ih2]
        simp
      · rw [if_neg ht, ih]
        have ht2 : ¬ c.1 = t := fun h => ht h.symm
        by_cases hm : t ∈ cs.map Prod.fst
        · rw [if_pos hm, if_pos (hmem.2 (Or.inl hm)), if_neg ht2, List.append_nil]
        · rw [if_neg hm, if_neg (fun h => (hmem.1 h).elim hm ht)]
    · rw [if_neg hc, List.find?_append, ih]
      have hc2 : c.1 ∉ cs.map Prod.fst := fun h => hc ((mem_terms_itemsAfter cs c.1).2 h)
      by_cases ht : t = c.1
      · subst ht
        rw [if_neg hc2, if_pos (hmem.2 (Or.inr rfl))]
        have hp := (postings_eq_nil cs c.1).2 hc2
        simp [hp]
      · have ht2 : ¬ c.1 = t := fun h => ht h.symm
        by_cases hm : t ∈ cs.map Prod.fst
        · rw [if_pos hm, if_pos (hmem.2 (Or.inl hm)), if_neg ht2, List.append_nil]
          rfl
        · rw [if_neg hm, if_neg (fun h => (hmem.1 h).elim hm ht)]
          simp [ht2]

theorem filter_of_nodup_terms (items : List InvertedIndexEntry) (t : String)
    (h : (terms items).Nodup) :
    entriesOf items t = (items.find? (fun e => decide (e.Term = t))).toList := by
  induction items with
  | nil => rfl
  | cons e rest ih =>
    simp only [terms, List.map_cons, List.nodup_cons] at h
    have ih2 := ih h.2
    unfold entriesOf at ih2 ⊢
    by_cases he : e.Term = t
    · have hnot : t ∉ terms rest := by rw [← he]; exact h.1
      have : rest.filter (fun item => decide (item.Term = t)) = [] := by
        rw [List.filter_eq_nil_iff]
        intro a ha hat
        apply hnot
        simp only [decide_eq_true_eq] at hat
        rw [← hat]
        exact List.mem_map_of_mem _ ha
      simp [he, this]
    · simp [he, ih2]

/-- The entries with term `t` after a sequence of calls on the empty index: exactly one when
`t` was added, carrying the documents of the calls for `t` in call order. -/
theorem entriesOf_itemsAfter (calls : List (String × Int)) (t : String) :
    entriesOf (itemsAfter calls) t =
      if t ∈ calls.map Prod.fst then
        [⟨t, ((postings calls t).length : Int), postings calls t⟩]
      else [] := by
  rw [filter_of_nodup_terms _ _ (nodup_terms_itemsAfter calls), find_itemsAfter]
  by_cases h : t ∈ calls.map Prod.fst
  · rw [if_pos h, if_pos h]; rfl
  · rw [if_neg h, if_neg h]; rfl

/-- Every sequence of `AddItem` calls on the empty index succeeds. -/
theorem AddItems_create (calls : List (String × Int)) :
    ∃ idx, AddItems CreateInvertedIndex calls = .ok idx ∧ Agree idx ∧
      idx.Items = itemsAfter calls := by
  obtain ⟨idx, h1, h2, h3⟩ := AddItems_of_agree calls CreateInvertedIndex agree_create
  exact ⟨idx, h1, h2, h3⟩

/-! ## The builder with caller-supplied ids -/

theorem mem_postings (calls : List (String × Int)) (t : String) (d : Int) :
    d ∈ postings calls t ↔ (t, d) ∈ calls := by
  simp only [postings, List.mem_map, List.mem_filter, decide_eq_true_eq]
  constructor
  · rintro ⟨⟨t2, d2⟩, ⟨h1, h2⟩, h3⟩
    simp only at h2 h3
    subst h2; subst h3; exact h1
  · intro h
    exact ⟨(t, d), ⟨h, rfl⟩, rfl⟩

theorem mem_map_fst_iff (calls : List (String × Int)) (t : String) :
    t ∈ calls.map Prod.fst ↔ ∃ d, (t, d) ∈ calls := by
  simp

theorem foldl_snoc_eq_map {α β : Type} (f : α → β) (l : List α) :
    ∀ acc : List β, l.foldl (fun a x => a ++ [f x]) acc = acc ++ l.map f := by
  induction l with
  | nil => intro acc; simp
  | cons x xs ih => intro acc; simp [ih]

theorem Preprocessing_eq_map (lower : Char → Char) (wordList : List String) :
    Preprocessing lower wordList = wordList.map (ToLower lower) := by
  unfold Preprocessing
  rw [foldl_snoc_eq_map]; rfl

theorem globalDocMap_withIds (order : List (Int × List String)) :
    ∀ acc : List DocMapWithId,
      (order.foldl
        (fun acc kv => kv.2.foldl (fun acc2 t => acc2 ++ [DocMapWithId.mk t kv.1]) acc) acc).map
          (fun Doc => (Doc.Term, Doc.DocId)) =
        acc.map (fun Doc => (Doc.Term, Doc.DocId)) ++ callsWithIds order := by
  induction order with
  | nil => intro acc; simp [callsWithIds]
  | cons kv rest ih =>
    intro acc
    rw [List.foldl_cons, ih, foldl_snoc_eq_map (fun t => DocMapWithId.mk t kv.1)]
    simp [callsWithIds, List.flatMap_cons, Function.comp]

theorem mem_callsWithIds (order : List (Int × List String)) (t : String) (d : Int) :
    (t, d) ∈ callsWithIds order ↔ ∃ v, (d, v) ∈ order ∧ t ∈ v := by
  simp only [callsWithIds, List.mem_flatMap, List.mem_map, Prod.mk.injEq]
  constructor
  · rintro ⟨⟨k, v⟩, hkv, t2, ht2, h1, h2⟩
    simp only at ht2 h2
    subst h1; subst h2
    exact ⟨v, hkv, ht2⟩
  · rintro ⟨v, hv, ht⟩
    exact ⟨(d, v), hv, t, ht, rfl, rfl⟩

theorem entriesOf_map (f : InvertedIndexEntry → InvertedIndexEntry)
    (hf : ∀ e, (f e).Term = e.Term) (items : List InvertedIndexEntry) (t : String) :
    entriesOf (items.map f) t = (entriesOf items t).map f := by
  unfold entriesOf
  rw [List.filter_map]
  congr 1
  apply List.filter_congr
  intro e _
  simp [hf]

theorem mem_entriesOf (items : List InvertedIndexEntry) (t : String) (e : InvertedIndexEntry) :
    e ∈ entriesOf items t ↔ e ∈ items ∧ e.Term = t := by
  simp [entriesOf]

/-- The index built by `GenerateInvertedIndexWithPreExistingIds`. -/
theorem withIds_items (range : List (Int × List String) → List (Int × List String))
    (Docs : List (Int × List String)) :
    ∃ idx, GenerateInvertedIndexWithPreExistingIds range Docs = .ok idx ∧ Agree idx ∧
      idx.Items = (itemsAfter (callsWithIds (range Docs))).map (fun item =>
        { item with DocumentListing := RemoveDuplicateListings item.DocumentListing }) := by
  obtain ⟨idx, h1, h2, h3⟩ := AddItems_create (callsWithIds (range Docs))
  refine ⟨{ idx with Items := idx.Items.map (fun item =>
        { item with DocumentListing := RemoveDuplicateListings item.DocumentListing }) }, ?_, ?_, ?_⟩
  · unfold GenerateInvertedIndexWithPreExistingIds
    simp only [globalDocMap_withIds, List.map_nil, List.nil_append, h1]
  · refine ⟨h2.1, ?_⟩
    intro t
    simp only [terms, List.map_map]
    exact h2.2 t
  · simp only [h3]

theorem withIds_entriesOf (range : List (Int × List String) → List (Int × List String))
    (Docs : List (Int × List String)) :
    ∃ idx, GenerateInvertedIndexWithPreExistingIds range Docs = .ok idx ∧ Agree idx ∧
      ∀ t, entriesOf idx.Items t =
        if t ∈ (callsWithIds (range Docs)).map Prod.fst then
          [⟨t, ((postings (callsWithIds (range Docs)) t).length : Int),
            RemoveDuplicateListings (postings (callsWithIds (range Docs)) t)⟩]
        else [] := by
  obtain ⟨idx, h1, h2, h3⟩ := withIds_items range Docs
  refine ⟨idx, h1, h2, ?_⟩
  intro t
  rw [h3, entriesOf_map (fun item =>
    { item with DocumentListing := RemoveDuplicateListings item.DocumentListing })
    (fun _ => rfl), entriesOf_itemsAfter]
  by_cases h : t ∈ (callsWithIds (range Docs)).map Prod.fst
  · rw [if_pos h, if_pos h]; rfl
  · rw [if_neg h, if_neg h]; rfl

theorem docsGet_eq_some (Docs : List (Int × List String)) (h : DocsMap Docs) (k : Int)
    (v : List String) : docsGet Docs k = some v ↔ (k, v) ∈ Docs := by
  induction Docs with
  | nil => simp [docsGet]
  | cons kv rest ih =>
    obtain ⟨k2, v2⟩ := kv
    simp only [DocsMap, List.map_cons, List.nodup_cons] at h
    have ih2 := ih h.2
    unfold docsGet
    by_cases hk : k2 = k
    · subst hk
      rw [if_pos rfl, List.mem_cons]
      constructor
      · intro hv
        left
        rw [Option.some.injEq] at hv
        rw [hv]
      · rintro (hv | hv)
        · rw [Prod.mk.injEq] at hv; rw [hv.2]
        · exact absurd (List.mem_map_of_mem Prod.fst hv) h.1
    · rw [if_neg hk, ih2, List.mem_cons]
      constructor
      · exact Or.inr
      · rintro (hv | hv)
        · rw [Prod.mk.injEq] at hv; exact absurd hv.1.symm hk
        · exact hv

theorem postings_map_pair (v : List String) (k : Int) (t : String) :
    postings (v.map (fun x => (x, k))) t = List.replicate (v.count t) k := by
  unfold postings
  rw [List.filter_map, List.map_map]
  have : (fun c : String × Int => decide (c.1 = t)) ∘ (fun x => (x, k)) =
      fun x => decide (x = t) := rfl
  rw [this, List.filter_eq]
  simp

theorem nodup_postings_callsWithIds (order : List (Int × List String)) (t : String)
    (hk : (order.map Prod.fst).Nodup) (hc : ∀ kv ∈ order, kv.2.count t ≤ 1) :
    (postings (callsWithIds order) t).Nodup := by
  induction order with
  | nil => simp [callsWithIds, postings]
  | cons kv rest ih =>
    simp only [List.map_cons, List.nodup_cons] at hk
    have ih2 := ih hk.2 (fun kv2 h2 => hc kv2 (List.mem_cons_of_mem _ h2))
    have hcount := hc kv (List.mem_cons_self _ _)
    have hsplit : callsWithIds (kv :: rest) =
        kv.2.map (fun x => (x, kv.1)) ++ callsWithIds rest := by
      simp [callsWithIds, List.flatMap_cons]
    rw [hsplit, postings_append, postings_map_pair]
    refine List.Nodup.append ?_ ih2 ?_
    · interval_cases h : kv.2.count t <;> simp
    · intro d hd1 hd2
      rw [List.mem_replicate] at hd1
      rw [mem_postings, mem_callsWithIds] at hd2
      obtain ⟨v, hv, -⟩ := hd2
      apply hk.1
      rw [← hd1.2]
      exact List.mem_map_of_mem Prod.fst hv

/-- C3: the index built from a map `Docs` has an entry for `t` exactly when `t` occurs in the
term sequence of some document, at most one entry per term, and the document listing of the
entry has no repetition and consists of the ids `k` with `t` in `Docs[k]`. -/
theorem C3_withIds_entries (range : List (Int × List String) → List (Int × List String))
    (Docs : List (Int × List String)) (hmap : DocsMap Docs) (hrange : (range Docs).Perm Docs) :
    ∃ idx, GenerateInvertedIndexWithPreExistingIds range Docs = .ok idx ∧
      ∀ t : String,
        ((∃ e ∈ idx.Items, e.Term = t) ↔ ∃ k v, docsGet Docs k = some v ∧ t ∈ v) ∧
        (entriesOf idx.Items t).length ≤ 1 ∧
        ∀ e ∈ idx.Items, e.Term = t →
          e.DocumentListing.Nodup ∧
          ∀ k, k ∈ e.DocumentListing ↔ ∃ v, docsGet Docs k = some v ∧ t ∈ v := by
  obtain ⟨idx, h1, -, h3⟩ := withIds_entriesOf range Docs
  refine ⟨idx, h1, ?_⟩
  intro t
  have hcalls : ∀ d, (t, d) ∈ callsWithIds (range Docs) ↔
      ∃ v, docsGet Docs d = some v ∧ t ∈ v := by
    intro d
    rw [mem_callsWithIds]
    constructor
    · rintro ⟨v, hv, ht⟩
      exact ⟨v, (docsGet_eq_some Docs hmap d v).2 (hrange.mem_iff.1 hv), ht⟩
    · rintro ⟨v, hv, ht⟩
      exact ⟨v, hrange.mem_iff.2 ((docsGet_eq_some Docs hmap d v).1 hv), ht⟩
  have ht3 := h3 t
  refine ⟨?_, ?_, ?_⟩
  · constructor
    · rintro ⟨e, he, het⟩
      have hmem : e ∈ entriesOf idx.Items t := (mem_entriesOf _ _ _).2 ⟨he, het⟩
      by_cases hin : t ∈ (callsWithIds (range Docs)).map Prod.fst
      · obtain ⟨d, hd⟩ := (mem_map_fst_iff _ _).1 hin
        obtain ⟨v, hv, ht⟩ := (hcalls d).1 hd
        exact ⟨d, v, hv, ht⟩
      · rw [ht3, if_neg hin] at hmem
        exact absurd hmem (List.not_mem_nil _)
    · rintro ⟨k, v, hv, ht⟩
      have hin : t ∈ (callsWithIds (range Docs)).map Prod.fst :=
        (mem_map_fst_iff _ _).2 ⟨k, (hcalls k).2 ⟨v, hv, ht⟩⟩
      rw [if_pos hin] at ht3
      have hmem : (⟨t, ((postings (callsWithIds (range Docs)) t).length : Int),
          RemoveDuplicateListings (postings (callsWithIds (range Docs)) t)⟩ :
            InvertedIndexEntry) ∈ entriesOf idx.Items t := by
        rw [ht3]; exact List.mem_singleton_self _
      exact ⟨_, ((mem_entriesOf _ _ _).1 hmem).1, rfl⟩
  · rw [ht3]
    split <;> simp
  · intro e he het
    have hmem : e ∈ entriesOf idx.Items t := (mem_entriesOf _ _ _).2 ⟨he, het⟩
    rw [ht3] at hmem
    by_cases hin : t ∈ (callsWithIds (range Docs)).map Prod.fst
    · rw [if_pos hin, List.mem_singleton] at hmem
      subst hmem
      refine ⟨uniqueLoop_snd_nodup _, ?_⟩
      intro k
      simp only [RemoveDuplicateListings]
      rw [uniqueLoop_snd_mem, mem_postings]
      exact hcalls k
    · rw [if_neg hin] at hmem
      exact absurd hmem (List.not_mem_nil _)

/-- C3, on the input of `TestGenerateInvertedIndexWithPreExistingIds`: the property holds, and
the two orders in which the map can be visited give the listed frequencies and id sets. -/
theorem C3_withIds_entries_witness :
    DocsMap [(1, ["1001", "1002"]), (23, ["1001", "1003"])] ∧
    (∃ idx, GenerateInvertedIndexWithPreExistingIds (fun m => m)
        [(1, ["1001", "1002"]), (23, ["1001", "1003"])] = .ok idx ∧
      ∀ t : String,
        ((∃ e ∈ idx.Items, e.Term = t) ↔
          ∃ k v, docsGet [(1, ["1001", "1002"]), (23, ["1001", "1003"])] k = some v ∧ t ∈ v) ∧
        (entriesOf idx.Items t).length ≤ 1 ∧
        ∀ e ∈ idx.Items, e.Term = t →
          e.DocumentListing.Nodup ∧
          ∀ k, k ∈ e.DocumentListing ↔
            ∃ v, docsGet [(1, ["1001", "1002"]), (23, ["1001", "1003"])] k = some v ∧ t ∈ v) ∧
    GenerateInvertedIndexWithPreExistingIds (fun m => m)
        [(1, ["1001", "1002"]), (23, ["1001", "1003"])] =
      .ok ⟨some [("1003", some 2), ("1002", some 1), ("1001", some 0)],
        [⟨"1001", 2, [1, 23]⟩, ⟨"1002", 1, [1]⟩, ⟨"1003", 1, [23]⟩]⟩ ∧
    GenerateInvertedIndexWithPreExistingIds List.reverse
        [(1, ["1001", "1002"]), (23, ["1001", "1003"])] =
      .ok ⟨some [("1002", some 2), ("1003", some 1), ("1001", some 0)],
        [⟨"1001", 2, [23, 1]⟩, ⟨"1003", 1, [23]⟩, ⟨"1002", 1, [1]⟩]⟩ :=
  ⟨by unfold DocsMap; decide,
   C3_withIds_entries (fun m => m) [(1, ["1001", "1002"]), (23, ["1001", "1003"])]
     (by unfold DocsMap; decide) (List.Perm.refl _),
   by rfl, by rfl⟩

/-! ## The builder with positional ids -/

theorem GenerateDocMap_snoc (l : List String) (x : String) :
    GenerateDocMap (l ++ [x]) =
      if x ∈ GenerateDocMap l then GenerateDocMap l else GenerateDocMap l ++ [x] := by
  simp [GenerateDocMap, List.foldl_append]

theorem GenerateDocMap_eq (token : List String) :
    GenerateDocMap token = RemoveDuplicates token := by
  induction token using List.reverseRecOn with
  | nil => rfl
  | append_singleton l x ih =>
    rw [GenerateDocMap_snoc, ih]
    simp only [RemoveDuplicates, uniqueLoop_snd_snoc, uniqueLoop_snd_mem]

theorem RemoveDuplicates_idem (l : List String) :
    RemoveDuplicates (RemoveDuplicates l) = RemoveDuplicates l :=
  uniqueLoop_snd_of_nodup _ (uniqueLoop_snd_nodup l)

theorem GenerateDocMap_Tokenize (lower : Char → Char) (Doc : String) :
    GenerateDocMap (Tokenize lower Doc) = Tokenize lower Doc := by
  rw [GenerateDocMap_eq]; exact RemoveDuplicates_idem _

theorem Tokenize_nodup (lower : Char → Char) (Doc : String) : (Tokenize lower Doc).Nodup :=
  uniqueLoop_snd_nodup _

theorem addAll_eq (range : Nat → List String → List String) (maps : List (List String)) :
    ∀ (k : Nat) (idx : InvertedIndex),
      GenerateInvertedIndex.addAll range maps k idx = AddItems idx (callsOfDocs range maps k) := by
  induction maps with
  | nil => intro k idx; rfl
  | cons m rest ih =>
    intro k idx
    simp only [GenerateInvertedIndex.addAll, callsOfDocs, AddItems_append]
    cases h : AddItems idx ((range k m).map (fun DocEntry => (DocEntry, (k : Int)))) with
    | error msg => rfl
    | ok mid => exact ih (k + 1) mid

/-- The maps built by the first loop of `GenerateInvertedIndex`: the key list of the `i`-th
map is `Tokenize DocList[i]`. -/
theorem globalDocMap_eq (lower : Char → Char) (DocList : List String) :
    DocList.foldl (fun globalDocMap Doc => globalDocMap ++ [GenerateDocMap (Tokenize lower Doc)])
      [] = DocList.map (Tokenize lower) := by
  rw [foldl_snoc_eq_map (fun Doc => GenerateDocMap (Tokenize lower Doc))]
  simp [GenerateDocMap_Tokenize]

/-- The index built by `GenerateInvertedIndex`. -/
theorem generate_items (lower : Char → Char) (range : Nat → List String → List String)
    (DocList : List String) :
    ∃ idx, GenerateInvertedIndex lower range DocList = .ok idx ∧ Agree idx ∧
      idx.Items = itemsAfter (callsOfDocs range (DocList.map (Tokenize lower)) 0) := by
  obtain ⟨idx, h1, h2, h3⟩ :=
    AddItems_create (callsOfDocs range (DocList.map (Tokenize lower)) 0)
  refine ⟨idx, ?_, h2, h3⟩
  unfold GenerateInvertedIndex
  rw [globalDocMap_eq, addAll_eq, h1]

theorem mem_callsOfDocs (range : Nat → List String → List String) (hr : KeyOrder range)
    (maps : List (List String)) (t : String) (d : Int) :
    ∀ k : Nat, (t, d) ∈ callsOfDocs range maps k ↔
      ∃ i m, maps[i]? = some m ∧ t ∈ m ∧ d = ((k + i : Nat) : Int) := by
  induction maps with
  | nil => intro k; simp [callsOfDocs]
  | cons m rest ih =>
    intro k
    simp only [callsOfDocs, List.mem_append, List.mem_map, Prod.mk.injEq, ih (k + 1)]
    constructor
    · rintro (⟨x, hx, hxt, hd⟩ | ⟨i, m2, hi, ht, hd⟩)
      · subst hxt
        exact ⟨0, m, by simp, (hr k m).mem_iff.1 hx, by simp [hd]⟩
      · exact ⟨i + 1, m2, by simpa using hi, ht, by rw [hd]; congr 1; omega⟩
    · rintro ⟨i, m2, hi, ht, hd⟩
      cases i with
      | zero =>
        left
        simp only [List.getElem?_cons_zero, Option.some.injEq] at hi
        subst hi
        exact ⟨t, (hr k m).mem_iff.2 ht, rfl, by simp [hd]⟩
      | succ j =>
        right
        exact ⟨j, m2, by simpa using hi, ht, by rw [hd]; congr 1; omega⟩

theorem sorted_postings_callsOfDocs (range : Nat → List String → List String)
    (hr : KeyOrder range) (maps : List (List String)) (hnd : ∀ m ∈ maps, m.Nodup) (t : String) :
    ∀ k : Nat, (postings (callsOfDocs range maps k) t).Pairwise (fun a b => a < b) := by
  induction maps with
  | nil => intro k; simp [callsOfDocs, postings]
  | cons m rest ih =>
    intro k
    have ih2 := ih (fun m2 h2 => hnd m2 (List.mem_cons_of_mem _ h2)) (k + 1)
    simp only [callsOfDocs]
    rw [postings_append, postings_map_pair]
    have hcount : (range k m).count t ≤ 1 :=
      List.nodup_iff_count_le_one.1
        (((hr k m).nodup_iff).2 (hnd m (List.mem_cons_self _ _))) t
    refine List.pairwise_append.2 ⟨?_, ih2, ?_⟩
    · interval_cases h : (range k m).count t <;> simp
    · intro a ha b hb
      rw [List.mem_replicate] at ha
      rw [mem_postings, mem_callsOfDocs range hr] at hb
      obtain ⟨i, m2, -, -, hb2⟩ := hb
      rw [ha.2, hb2]
      exact_mod_cast (by omega : k < k + 1 + i)

theorem getElem?_map_Tokenize (lower : Char → Char) (DocList : List String) (i : Nat)
    (m : List String) :
    (DocList.map (Tokenize lower))[i]? = some m ↔
      ∃ Doc, DocList[i]? = some Doc ∧ m = Tokenize lower Doc := by
  rw [List.getElem?_map]
  cases h : DocList[i]? with
  | none => simp
  | some Doc =>
    simp only [Option.map_some', Option.some.injEq]
    constructor
    · intro hm; exact ⟨Doc, rfl, hm.symm⟩
    · rintro ⟨Doc2, h2, hm⟩; rw [hm, h2]

/-- C2: for a term `t` of some document, the index built by `GenerateInvertedIndex` has
exactly one entry with term `t`; its document listing is strictly increasing and consists of
the positions `i` with `t` in `Tokenize DocList[i]`, and its frequency is the length of the
listing. -/
theorem C2_generate_postings (lower : Char → Char) (range : Nat → List String → List String)
    (DocList : List String) (hr : KeyOrder range) (t : String)
    (ht : ∃ (i : Nat) (Doc : String), DocList[i]? = some Doc ∧ t ∈ Tokenize lower Doc) :
    ∃ idx e, GenerateInvertedIndex lower range DocList = .ok idx ∧
      entriesOf idx.Items t = [e] ∧
      e.DocumentListing.Pairwise (fun a b => a < b) ∧
      (∀ d : Int, d ∈ e.DocumentListing ↔
        ∃ (i : Nat) (Doc : String),
          DocList[i]? = some Doc ∧ t ∈ Tokenize lower Doc ∧ d = (i : Int)) ∧
      e.Frequency = (e.DocumentListing.length : Int) := by
  obtain ⟨idx, h1, -, h3⟩ := generate_items lower range DocList
  have hcalls : ∀ d : Int, (t, d) ∈ callsOfDocs range (DocList.map (Tokenize lower)) 0 ↔
      ∃ (i : Nat) (Doc : String),
          DocList[i]? = some Doc ∧ t ∈ Tokenize lower Doc ∧ d = (i : Int) := by
    intro d
    rw [mem_callsOfDocs range hr]
    constructor
    · rintro ⟨i, m, hm, htm, hd⟩
      obtain ⟨Doc, hDoc, rfl⟩ := (getElem?_map_Tokenize lower DocList i m).1 hm
      exact ⟨i, Doc, hDoc, htm, by simpa using hd⟩
    · rintro ⟨i, Doc, hDoc, htm, hd⟩
      exact ⟨i, Tokenize lower Doc, (getElem?_map_Tokenize lower DocList i _).2 ⟨Doc, hDoc, rfl⟩,
        htm, by simpa using hd⟩
  have hin : t ∈ (callsOfDocs range (DocList.map (Tokenize lower)) 0).map Prod.fst := by
    obtain ⟨i, Doc, hDoc, htm⟩ := ht
    exact (mem_map_fst_iff _ _).2 ⟨(i : Int), (hcalls i).2 ⟨i, Doc, hDoc, htm, rfl⟩⟩
  refine ⟨idx, ⟨t, ((postings (callsOfDocs range (DocList.map (Tokenize lower)) 0) t).length : Int),
    postings (callsOfDocs range (DocList.map (Tokenize lower)) 0) t⟩, h1, ?_, ?_, ?_, rfl⟩
  · rw [h3, entriesOf_itemsAfter, if_pos hin]
  · apply sorted_postings_callsOfDocs range hr
    intro m hm
    obtain ⟨Doc, -, rfl⟩ := List.mem_map.1 hm
    exact Tokenize_nodup lower Doc
  · intro d
    rw [mem_postings]
    exact hcalls d

/-- C2 on the three documents of the scenario: `home` has frequency 3 and ids 0, 1, 2 and
`top` has frequency 1 and id 0. -/
theorem C2_generate_postings_witness :
    KeyOrder (fun _ m => m) ∧
    (∃ (i : Nat) (Doc : String), ["new home sales top forecasts", "home sales rise in July",
        "increase in home sales in July"][i]? = some Doc ∧ "home" ∈ Tokenize Char.toLower Doc) ∧
    (∃ idx e, GenerateInvertedIndex Char.toLower (fun _ m => m)
        ["new home sales top forecasts", "home sales rise in July",
          "increase in home sales in July"] = .ok idx ∧
      entriesOf idx.Items "home" = [e] ∧
      e.DocumentListing.Pairwise (fun a b => a < b) ∧
      (∀ d : Int, d ∈ e.DocumentListing ↔
        ∃ (i : Nat) (Doc : String), ["new home sales top forecasts", "home sales rise in July",
          "increase in home sales in July"][i]? = some Doc ∧
          "home" ∈ Tokenize Char.toLower Doc ∧ d = (i : Int)) ∧
      e.Frequency = (e.DocumentListing.length : Int)) ∧
    (∃ idx, GenerateInvertedIndex Char.toLower (fun _ m => m)
        ["new home sales top forecasts", "home sales rise in July",
          "increase in home sales in July"] = .ok idx ∧
      entriesOf idx.Items "home" = [⟨"home", 3, [0, 1, 2]⟩] ∧
      entriesOf idx.Items "top" = [⟨"top", 1, [0]⟩]) :=
  ⟨fun _ m => List.Perm.refl m,
   ⟨0, "new home sales top forecasts", by simp, by decide⟩,
   C2_generate_postings Char.toLower (fun _ m => m)
     ["new home sales top forecasts", "home sales rise in July",
       "increase in home sales in July"] (fun _ m => List.Perm.refl m) "home"
     ⟨0, "new home sales top forecasts", by simp, by decide⟩,
   ⟨_, by rfl, by decide, by decide⟩⟩

theorem map_fst_callsOfDocs (range : Nat → List String → List String)
    (maps : List (List String)) :
    ∀ k : Nat, (callsOfDocs range maps k).map Prod.fst = visited range maps k := by
  induction maps with
  | nil => intro k; rfl
  | cons m rest ih =>
    intro k
    simp only [callsOfDocs, visited, List.map_append, List.map_map, ih (k + 1)]
    congr 1
    exact List.map_id _

theorem mem_visited (range : Nat → List String → List String) (hr : KeyOrder range)
    (maps : List (List String)) (x : String) :
    ∀ k : Nat, x ∈ visited range maps k ↔ x ∈ maps.flatten := by
  induction maps with
  | nil => intro k; simp [visited]
  | cons m rest ih =>
    intro k
    simp only [visited, List.mem_append, List.flatten_cons, ih (k + 1), (hr k m).mem_iff]

theorem visited_id (maps : List (List String)) :
    ∀ k : Nat, visited (fun _ m => m) maps k = maps.flatten := by
  induction maps with
  | nil => intro k; rfl
  | cons m rest ih => intro k; simp only [visited, List.flatten_cons, ih (k + 1)]

/-- C4 fails as stated: when the inner `range` visits the keys `a`, `b` of the map of the
document `a b` in the order `b`, `a`, the items come out as `b`, `a`, which is neither the
deduplicated token sequence nor the item order of the run that visits `a` first. -/
theorem C4_order_counterexample :
    KeyOrder (fun _ m => m.reverse) ∧ KeyOrder (fun _ m => m) ∧
    ∃ idx idx2,
      GenerateInvertedIndex Char.toLower (fun _ m => m.reverse) ["a b"] = .ok idx ∧
      GenerateInvertedIndex Char.toLower (fun _ m => m) ["a b"] = .ok idx2 ∧
      terms idx.Items = ["b", "a"] ∧
      terms idx.Items ≠ RemoveDuplicates ((["a b"].map (Tokenize Char.toLower)).flatten) ∧
      terms idx.Items ≠ terms idx2.Items :=
  ⟨fun _ m => List.reverse_perm m, fun _ m => List.Perm.refl m,
   ⟨some [("a", some 1), ("b", some 0)], [⟨"b", 1, [0]⟩, ⟨"a", 1, [0]⟩]⟩,
   ⟨some [("b", some 1), ("a", some 0)], [⟨"a", 1, [0]⟩, ⟨"b", 1, [0]⟩]⟩,
   by rfl, by rfl, by rfl, by decide, by decide⟩

/-- C4, amended: the terms of the items are the first-occurrence-deduplicated concatenation of
the key enumerations of the documents, taken in document order, where the enumeration of
document `i` is the permutation of `Tokenize DocList[i]` chosen by `range`; they are a
duplicate-free permutation of the deduplicated concatenation of the token lists, and the run
that visits every map in token order yields exactly that concatenation. -/
theorem C4_order_amended (lower : Char → Char) (range : Nat → List String → List String)
    (DocList : List String) (hr : KeyOrder range) :
    (∃ idx, GenerateInvertedIndex lower range DocList = .ok idx ∧
      terms idx.Items = RemoveDuplicates (visited range (DocList.map (Tokenize lower)) 0) ∧
      (terms idx.Items).Nodup ∧
      (terms idx.Items).Perm (RemoveDuplicates ((DocList.map (Tokenize lower)).flatten))) ∧
    (∃ idx, GenerateInvertedIndex lower (fun _ m => m) DocList = .ok idx ∧
      terms idx.Items = RemoveDuplicates ((DocList.map (Tokenize lower)).flatten)) := by
  obtain ⟨idx, h1, -, h3⟩ := generate_items lower range DocList
  have hterms : terms idx.Items =
      RemoveDuplicates (visited range (DocList.map (Tokenize lower)) 0) := by
    rw [h3, terms_itemsAfter, map_fst_callsOfDocs]
  refine ⟨⟨idx, h1, hterms, ?_, ?_⟩, ?_⟩
  · rw [hterms]; exact uniqueLoop_snd_nodup _
  · rw [hterms]
    refine (List.perm_ext_iff_of_nodup (uniqueLoop_snd_nodup _) (uniqueLoop_snd_nodup _)).2 ?_
    intro x
    rw [uniqueLoop_snd_mem, uniqueLoop_snd_mem, mem_visited range hr]
  · obtain ⟨idx0, h4, -, h5⟩ := generate_items lower (fun _ m => m) DocList
    refine ⟨idx0, h4, ?_⟩
    rw [h5, terms_itemsAfter, map_fst_callsOfDocs, visited_id]

/-- C4, amended, on the document `a b` with its map visited in the order `b`, `a`. -/
theorem C4_order_amended_witness :
    KeyOrder (fun _ m => m.reverse) ∧
    (∃ idx, GenerateInvertedIndex Char.toLower (fun _ m => m.reverse) ["a b"] = .ok idx ∧
      terms idx.Items = RemoveDuplicates
        (visited (fun _ m => m.reverse) (["a b"].map (Tokenize Char.toLower)) 0) ∧
      (terms idx.Items).Nodup ∧
      (terms idx.Items).Perm
        (RemoveDuplicates ((["a b"].map (Tokenize Char.toLower)).flatten))) ∧
    (∃ idx, GenerateInvertedIndex Char.toLower (fun _ m => m) ["a b"] = .ok idx ∧
      terms idx.Items = RemoveDuplicates ((["a b"].map (Tokenize Char.toLower)).flatten)) :=
  ⟨fun _ m => List.reverse_perm m,
   C4_order_amended Char.toLower (fun _ m => m.reverse) ["a b"] (fun _ m => List.reverse_perm m)⟩

/-! ## Lookup -/

theorem Find_of_mem (lower : Char → Char) (idx : InvertedIndex) (hA : Agree idx) (s : String)
    (h : ToLower lower s ∈ terms idx.Items) :
    ∃ item, idx.Items.find? (fun e => decide (e.Term = ToLower lower s)) = some item ∧
      Find lower idx s = .ok (.Found s item.DocumentListing) := by
  obtain ⟨pos, item, h1, h2, -, -, h5⟩ := scan_of_mem (ToLower lower s) 0 idx.Items h 0
  refine ⟨item, h5, ?_⟩
  unfold Find
  rw [if_pos ((hA.2 _).2 h)]
  unfold FindItem
  rw [h1]
  simp only [Nat.zero_add, h2]

theorem Find_of_not_mem (lower : Char → Char) (idx : InvertedIndex) (hA : Agree idx) (s : String)
    (h : ToLower lower s ∉ terms idx.Items) : Find lower idx s = .ok (.NotFound s) := by
  unfold Find
  rw [if_neg (fun hs => h ((hA.2 _).1 hs))]

/-- C5: on an index built by `AddItem` calls, a search string whose lowercase form is a term
of the index is reported found with the document listing of the one entry for that term; on
an index built by `GenerateInvertedIndex` a search string is reported found exactly when its
lowercase form is a token of some document. -/
theorem C5_find_found (lower : Char → Char) :
    (∀ calls : List (String × Int),
      ∃ idx, AddItems CreateInvertedIndex calls = .ok idx ∧
        ∀ s : String, ToLower lower s ∈ terms idx.Items →
          ∃ e, entriesOf idx.Items (ToLower lower s) = [e] ∧
            Find lower idx s = .ok (.Found s e.DocumentListing)) ∧
    (∀ (range : Nat → List String → List String) (DocList : List String), KeyOrder range →
      ∃ idx, GenerateInvertedIndex lower range DocList = .ok idx ∧
        ∀ s : String,
          ((∃ e, entriesOf idx.Items (ToLower lower s) = [e] ∧
              Find lower idx s = .ok (.Found s e.DocumentListing)) ↔
            ∃ (i : Nat) (Doc : String),
              DocList[i]? = some Doc ∧ ToLower lower s ∈ Tokenize lower Doc) ∧
          ((∃ docs, Find lower idx s = .ok (.Found s docs)) ↔
            ∃ (i : Nat) (Doc : String),
              DocList[i]? = some Doc ∧ ToLower lower s ∈ Tokenize lower Doc)) := by
  have key : ∀ (calls : List (String × Int)) (idx : InvertedIndex), Agree idx →
      idx.Items = itemsAfter calls → ∀ s : String, ToLower lower s ∈ terms idx.Items →
        ∃ e, entriesOf idx.Items (ToLower lower s) = [e] ∧
          Find lower idx s = .ok (.Found s e.DocumentListing) := by
    intro calls idx hA hI s hs
    obtain ⟨item, h1, h2⟩ := Find_of_mem lower idx hA s hs
    refine ⟨item, ?_, h2⟩
    rw [filter_of_nodup_terms _ _ (by rw [hI]; exact nodup_terms_itemsAfter calls), h1]
    rfl
  constructor
  · intro calls
    obtain ⟨idx, h1, h2, h3⟩ := AddItems_create calls
    exact ⟨idx, h1, key calls idx h2 h3⟩
  · intro range DocList hr
    obtain ⟨idx, h1, h2, h3⟩ := generate_items lower range DocList
    refine ⟨idx, h1, ?_⟩
    intro s
    have hiff : ToLower lower s ∈ terms idx.Items ↔
        ∃ (i : Nat) (Doc : String),
          DocList[i]? = some Doc ∧ ToLower lower s ∈ Tokenize lower Doc := by
      rw [h3, mem_terms_itemsAfter, mem_map_fst_iff]
      constructor
      · rintro ⟨d, hd⟩
        obtain ⟨i, m, hm, htm, -⟩ := (mem_callsOfDocs range hr _ _ d 0).1 hd
        obtain ⟨Doc, hDoc, rfl⟩ := (getElem?_map_Tokenize lower DocList i m).1 hm
        exact ⟨i, Doc, hDoc, htm⟩
      · rintro ⟨i, Doc, hDoc, htm⟩
        exact ⟨((0 + i : Nat) : Int), (mem_callsOfDocs range hr _ _ _ 0).2
          ⟨i, Tokenize lower Doc, (getElem?_map_Tokenize lower DocList i _).2 ⟨Doc, hDoc, rfl⟩,
            htm, rfl⟩⟩
    have hnot : ToLower lower s ∉ terms idx.Items → ∀ docs,
        Find lower idx s ≠ .ok (.Found s docs) := by
      intro hn docs hf
      rw [Find_of_not_mem lower idx h2 s hn] at hf
      simp at hf
    constructor
    · rw [← hiff]
      constructor
      · rintro ⟨e, -, hf⟩
        by_contra hn
        exact hnot hn _ hf
      · exact key _ idx h2 h3 s
    · rw [← hiff]
      constructor
      · rintro ⟨docs, hf⟩
        by_contra hn
        exact hnot hn _ hf
      · intro hs
        obtain ⟨e, -, hf⟩ := key _ idx h2 h3 s hs
        exact ⟨_, hf⟩

/-- C5 on concrete inputs: after the calls for `sales`, `home`, `sales` the search string
`Sales` is found in documents 0 and 1; on the three documents of the scenario `Sales` is a
token of a document and is found in documents 0, 1, 2, while `august` is not found. -/
theorem C5_find_found_witness :
    (∃ idx, AddItems CreateInvertedIndex [("sales", 0), ("home", 0), ("sales", 1)] = .ok idx ∧
      ToLower Char.toLower "Sales" ∈ terms idx.Items ∧
      (∃ e, entriesOf idx.Items (ToLower Char.toLower "Sales") = [e] ∧
        Find Char.toLower idx "Sales" = .ok (.Found "Sales" e.DocumentListing)) ∧
      Find Char.toLower idx "Sales" = .ok (.Found "Sales" [0, 1])) ∧
    KeyOrder (fun _ m => m) ∧
    (∃ idx, GenerateInvertedIndex Char.toLower (fun _ m => m)
        ["new home sales top forecasts", "home sales rise in July",
          "increase in home sales in July"] = .ok idx ∧
      (∃ (i : Nat) (Doc : String),
        ["new home sales top forecasts", "home sales rise in July",
          "increase in home sales in July"][i]? = some Doc ∧
        ToLower Char.toLower "Sales" ∈ Tokenize Char.toLower Doc) ∧
      (∃ docs, Find Char.toLower idx "Sales" = .ok (.Found "Sales" docs)) ∧
      Find Char.toLower idx "Sales" = .ok (.Found "Sales" [0, 1, 2]) ∧
      Find Char.toLower idx "august" = .ok (.NotFound "august")) := by
  refine ⟨?_, fun _ m => List.Perm.refl m, ?_⟩
  · obtain ⟨idx, h1, h2⟩ :=
      (C5_find_found Char.toLower).1 [("sales", 0), ("home", 0), ("sales", 1)]
    have hidx : idx = ⟨some [("home", some 1), ("sales", some 0)],
        [⟨"sales", 2, [0, 1]⟩, ⟨"home", 1, [0]⟩]⟩ :=
      (Except.ok.inj h1).symm
    have hs : ToLower Char.toLower "Sales" ∈ terms idx.Items := by rw [hidx]; decide
    refine ⟨idx, h1, hs, h2 "Sales" hs, ?_⟩
    rw [hidx]; rfl
  · obtain ⟨idx, h1, h2⟩ :=
      (C5_find_found Char.toLower).2 (fun _ m => m)
        ["new home sales top forecasts", "home sales rise in July",
          "increase in home sales in July"] (fun _ m => List.Perm.refl m)
    have hdoc : ∃ (i : Nat) (Doc : String),
        ["new home sales top forecasts", "home sales rise in July",
          "increase in home sales in July"][i]? = some Doc ∧
        ToLower Char.toLower "Sales" ∈ Tokenize Char.toLower Doc :=
      ⟨0, "new home sales top forecasts", by simp, by decide⟩
    have hidx : idx = ⟨some [("increase", some 8), ("july", some 7), ("in", some 6),
          ("rise", some 5), ("forecasts", some 4), ("top", some 3), ("sales", some 2),
          ("home", some 1), ("new", some 0)],
        [⟨"new", 1, [0]⟩, ⟨"home", 3, [0, 1, 2]⟩, ⟨"sales", 3, [0, 1, 2]⟩, ⟨"top", 1, [0]⟩,
          ⟨"forecasts", 1, [0]⟩, ⟨"rise", 1, [1]⟩, ⟨"in", 2, [1, 2]⟩, ⟨"july", 2, [1, 2]⟩,
          ⟨"increase", 1, [2]⟩]⟩ :=
      (Except.ok.inj h1).symm
    refine ⟨idx, h1, hdoc, ((h2 "Sales").2).2 hdoc, ?_, ?_⟩
    · rw [hidx]; rfl
    · rw [hidx]; rfl

/-- C6: two search strings with the same lowercase form get the same outcome from `Find` on
every index: both panic, both are reported not found, or both are reported found with the
same document listing. -/
theorem C6_find_case_insensitive (lower : Char → Char) (index : InvertedIndex)
    (s s2 : String) (h : ToLower lower s = ToLower lower s2) :
    (Find lower index s).map FindOutput.outcome =
      (Find lower index s2).map FindOutput.outcome := by
  unfold Find
  rw [h]
  split
  · cases FindItem index (ToLower lower s2) with
    | error msg => rfl
    | ok pos =>
      dsimp only
      cases hi : index.Items[pos]? with
      | none => rfl
      | some item => rfl
  · rfl

/-- C6 on `Sales` and `sales`: both are found in documents 0 and 1. -/
theorem C6_find_case_insensitive_witness :
    ToLower Char.toLower "Sales" = ToLower Char.toLower "sales" ∧
    Find Char.toLower
      ⟨some [("home", some 1), ("sales", some 0)], [⟨"sales", 2, [0, 1]⟩, ⟨"home", 1, [0]⟩]⟩
      "Sales" = .ok (.Found "Sales" [0, 1]) ∧
    Find Char.toLower
      ⟨some [("home", some 1), ("sales", some 0)], [⟨"sales", 2, [0, 1]⟩, ⟨"home", 1, [0]⟩]⟩
      "sales" = .ok (.Found "sales" [0, 1]) ∧
    (Find Char.toLower
      ⟨some [("home", some 1), ("sales", some 0)], [⟨"sales", 2, [0, 1]⟩, ⟨"home", 1, [0]⟩]⟩
      "Sales").map FindOutput.outcome =
    (Find Char.toLower
      ⟨some [("home", some 1), ("sales", some 0)], [⟨"sales", 2, [0, 1]⟩, ⟨"home", 1, [0]⟩]⟩
      "sales").map FindOutput.outcome :=
  ⟨by decide, by rfl, by rfl,
   C6_find_case_insensitive Char.toLower _ "Sales" "sales" (by decide)⟩

/-- C7: on an index built by `AddItem` calls, a search string whose lowercase form was never
added is reported not found, without panic; on the index built from no document and on the
empty index every search string is reported not found. -/
theorem C7_find_not_found (lower : Char → Char) :
    (∀ (calls : List (String × Int)) (s : String), ToLower lower s ∉ calls.map Prod.fst →
      ∃ idx, AddItems CreateInvertedIndex calls = .ok idx ∧
        Find lower idx s = .ok (.NotFound s)) ∧
    (∀ (range : Nat → List String → List String) (s : String),
      ∃ idx, GenerateInvertedIndex lower range [] = .ok idx ∧
        Find lower idx s = .ok (.NotFound s)) ∧
    (∀ s : String, Find lower CreateInvertedIndex s = .ok (.NotFound s)) := by
  refine ⟨?_, ?_, ?_⟩
  · intro calls s hs
    obtain ⟨idx, h1, h2, h3⟩ := AddItems_create calls
    refine ⟨idx, h1, Find_of_not_mem lower idx h2 s ?_⟩
    rw [h3, mem_terms_itemsAfter]
    exact hs
  · intro range s
    exact ⟨CreateInvertedIndex, rfl, rfl⟩
  · intro s
    rfl

/-- C7 on the calls for `sales` and `home`: `Rise` was never added and is reported not
found. -/
theorem C7_find_not_found_witness :
    ToLower Char.toLower "Rise" ∉ [("sales", (0 : Int)), ("home", 0), ("sales", 1)].map Prod.fst ∧
    (∃ idx, AddItems CreateInvertedIndex [("sales", 0), ("home", 0), ("sales", 1)] = .ok idx ∧
      Find Char.toLower idx "Rise" = .ok (.NotFound "Rise")) :=
  ⟨by decide,
   (C7_find_not_found Char.toLower).1 [("sales", 0), ("home", 0), ("sales", 1)] "Rise"
     (by decide)⟩

/-! ## The tokenizer -/

theorem scan_map_lower (lower : Char → Char) (hsp : ∀ c, isSpace (lower c) = isSpace c)
    (cs : List Char) :
    ∀ run : List Char, FindAllString.scan (cs.map lower) (run.map lower) =
      (FindAllString.scan cs run).map (ToLower lower) := by
  induction cs with
  | nil =>
    intro run
    by_cases h : run = []
    · simp [FindAllString.scan, h]
    · simp [FindAllString.scan, h, ToLower]
  | cons c rest ih =>
    intro run
    simp only [List.map_cons, FindAllString.scan, hsp]
    by_cases hc : isSpace c = true
    · rw [if_pos hc, if_pos hc]
      have ih0 := ih []
      simp only [List.map_nil] at ih0
      by_cases h : run = []
      · simp [h, ih0]
      · simp [h, ih0, ToLower]
    · rw [if_neg hc, if_neg hc]
      have := ih (run ++ [c])
      simpa using this

theorem FindAllString_ToLower (lower : Char → Char) (hsp : ∀ c, isSpace (lower c) = isSpace c)
    (s : String) :
    FindAllString (ToLower lower s) = (FindAllString s).map (ToLower lower) := by
  have := scan_map_lower lower hsp s.data []
  simpa [FindAllString, ToLower] using this

theorem ToLower_idem (lower : Char → Char) (hid : ∀ c, lower (lower c) = lower c) (s : String) :
    ToLower lower (ToLower lower s) = ToLower lower s := by
  simp only [ToLower, List.map_map]
  congr 1
  apply List.map_congr_left
  intro c _
  exact hid c

theorem Tokenize_eq (lower : Char → Char) (Doc : String) :
    Tokenize lower Doc = RemoveDuplicates ((FindAllString Doc).map (ToLower lower)) := by
  unfold Tokenize
  rw [Preprocessing_eq_map]

theorem toNat_ofNat_small (n : Nat) (h : n < 55296) : (Char.ofNat n).toNat = n := by
  unfold Char.ofNat
  have hv : n.isValidChar := Or.inl h
  rw [dif_pos hv]
  simp [Char.ofNatAux, Char.toNat, UInt32.toNat]

theorem toNat_toLower (c : Char) :
    (Char.toLower c).toNat = if 65 ≤ c.toNat ∧ c.toNat ≤ 90 then c.toNat + 32 else c.toNat := by
  unfold Char.toLower
  by_cases h : c.toNat ≥ 65 ∧ c.toNat ≤ 90
  · simp only [h, and_self, if_true]
    exact toNat_ofNat_small _ (by omega)
  · simp only [h, if_false]

theorem isSpace_toLower (c : Char) : isSpace (Char.toLower c) = isSpace c := by
  unfold isSpace
  rw [toNat_toLower]
  split
  · rw [Bool.eq_iff_iff]
    simp only [Bool.or_eq_true, decide_eq_true_eq]
    omega
  · rfl

theorem toLower_toLower (c : Char) : Char.toLower (Char.toLower c) = Char.toLower c := by
  have h1 := toNat_toLower c
  have h2 : ¬ (65 ≤ (Char.toLower c).toNat ∧ (Char.toLower c).toNat ≤ 90) := by
    rw [h1]; split <;> omega
  generalize Char.toLower c = d at h2
  unfold Char.toLower
  simp only [ge_iff_le]
  rw [if_neg h2]

/-- C9: `Tokenize` depends only on the lowercase forms of the whitespace-delimited tokens of
its argument, hence only on the lowercase form of the argument, and `Tokenize s` is
`Tokenize` of the lowercase form of `s`. -/
theorem C9_tokenize_case_invariant (lower : Char → Char)
    (hsp : ∀ c, isSpace (lower c) = isSpace c) (hid : ∀ c, lower (lower c) = lower c) :
    (∀ s s2 : String,
      (FindAllString s).map (ToLower lower) = (FindAllString s2).map (ToLower lower) →
        Tokenize lower s = Tokenize lower s2) ∧
    (∀ s s2 : String, ToLower lower s = ToLower lower s2 →
      Tokenize lower s = Tokenize lower s2) ∧
    (∀ s : String, Tokenize lower s = Tokenize lower (ToLower lower s)) := by
  have h2 : ∀ s s2 : String, ToLower lower s = ToLower lower s2 →
      Tokenize lower s = Tokenize lower s2 := by
    intro s s2 h
    rw [Tokenize_eq, Tokenize_eq, ← FindAllString_ToLower lower hsp,
      ← FindAllString_ToLower lower hsp, h]
  refine ⟨?_, h2, ?_⟩
  · intro s s2 h
    rw [Tokenize_eq, Tokenize_eq, h]
  · intro s
    exact h2 s (ToLower lower s) (ToLower_idem lower hid s).symm

/-- C9 for the ASCII table on `New  HOME` and `new  home`. -/
theorem C9_tokenize_case_invariant_witness :
    (∀ c, isSpace (Char.toLower c) = isSpace c) ∧
    (∀ c, Char.toLower (Char.toLower c) = Char.toLower c) ∧
    ToLower Char.toLower "New  HOME" = ToLower Char.toLower "new  home" ∧
    Tokenize Char.toLower "New  HOME" = Tokenize Char.toLower "new  home" ∧
    Tokenize Char.toLower "New  HOME" = ["new", "home"] :=
  ⟨isSpace_toLower, toLower_toLower, by decide,
   (C9_tokenize_case_invariant Char.toLower isSpace_toLower toLower_toLower).2.1
     "New  HOME" "new  home" (by decide),
   by decide⟩

/-- C8: `Tokenize Doc` has no repeated term, has the same terms as the list of lowercased
words of `Doc`, and lists them in the order of their first occurrence in that list; on the
input of `TestTokenize` it returns the five expected terms. -/
theorem C8_tokenize_unique_ordered :
    (∀ (lower : Char → Char) (Doc : String),
      (Tokenize lower Doc).Nodup ∧
      (∀ t, t ∈ Tokenize lower Doc ↔ t ∈ Preprocessing lower (FindAllString Doc)) ∧
      (Tokenize lower Doc).Pairwise (fun a b =>
        (Preprocessing lower (FindAllString Doc)).indexOf a <
          (Preprocessing lower (FindAllString Doc)).indexOf b)) ∧
    Tokenize Char.toLower "new home sales top forecasts NEW" =
      ["new", "home", "sales", "top", "forecasts"] := by
  refine ⟨?_, by decide⟩
  intro lower Doc
  exact ⟨uniqueLoop_snd_nodup _, uniqueLoop_snd_mem _, uniqueLoop_snd_order _⟩

theorem maximalRun_of_no_space (D w : List Char) (hD : ∀ c ∈ D, isSpace c = false) :
    IsMaximalRun D w ↔ D ≠ [] ∧ w = D := by
  constructor
  · rintro ⟨hw, -, pre, post, hsplit, hpre, hpost⟩
    have hpre2 : pre = [] := by
      rcases hpre with h | ⟨p, c, hp, hc⟩
      · exact h
      · have : c ∈ D := by rw [hsplit, hp]; simp
        rw [hD c this] at hc
        exact absurd hc (by simp)
    have hpost2 : post = [] := by
      rcases hpost with h | ⟨c, q, hq, hc⟩
      · exact h
      · have : c ∈ D := by rw [hsplit, hq]; simp
        rw [hD c this] at hc
        exact absurd hc (by simp)
    subst hpre2; subst hpost2
    simp only [List.nil_append, List.append_nil] at hsplit
    subst hsplit
    exact ⟨hw, rfl⟩
  · rintro ⟨hne, rfl⟩
    exact ⟨hne, hD, [], [], by simp, Or.inl rfl, Or.inl rfl⟩

theorem maximalRun_at_space (run rest w : List Char) (c : Char)
    (hrun : ∀ x ∈ run, isSpace x = false) (hc : isSpace c = true) :
    IsMaximalRun (run ++ c :: rest) w ↔ (run ≠ [] ∧ w = run) ∨ IsMaximalRun rest w := by
  constructor
  · rintro ⟨hw, hns, pre, post, hsplit, hpre, hpost⟩
    have hcw : c ∉ w := by
      intro h
      rw [hns c h] at hc
      exact absurd hc (by simp)
    -- a prefix of `run` that ends the part before `w` is empty
    have hpre_in_run : (∀ x ∈ pre, x ∈ run) → pre = [] := by
      intro hsub
      rcases hpre with h | ⟨p, x, hp, hx⟩
      · exact h
      · have : x ∈ run := hsub x (by rw [hp]; simp)
        rw [hrun x this] at hx
        exact absurd hx (by simp)
    rw [List.append_assoc] at hsplit
    rcases List.append_eq_append_iff.1 hsplit with ⟨a, ha1, ha2⟩ | ⟨b, hb1, hb2⟩
    · -- `pre = run ++ a`, `c :: rest = a ++ (w ++ post)`
      cases a with
      | nil =>
        simp only [List.nil_append] at ha2
        cases w with
        | nil => exact absurd rfl hw
        | cons x w2 =>
          simp only [List.cons_append, List.cons.injEq] at ha2
          exact absurd (by rw [ha2.1]; exact List.mem_cons_self _ _) hcw
      | cons x a2 =>
        simp only [List.cons_append, List.cons.injEq] at ha2
        right
        refine ⟨hw, hns, a2, post, by rw [ha2.2, List.append_assoc], ?_, hpost⟩
        rcases hpre with h | ⟨p, y, hp, hy⟩
        · rw [h] at ha1
          simp at ha1
        · by_cases ha2nil : a2 = []
          · exact Or.inl ha2nil
          · right
            obtain ⟨p2, y2, hp2⟩ : ∃ p2 y2, a2 = p2 ++ [y2] :=
              ⟨a2.dropLast, a2.getLast ha2nil, (List.dropLast_append_getLast ha2nil).symm⟩
            refine ⟨p2, y2, hp2, ?_⟩
            rw [hp, hp2] at ha1
            have : run ++ x :: (p2 ++ [y2]) = (run ++ x :: p2) ++ [y2] := by simp
            rw [this] at ha1
            have := List.append_inj_right' ha1 rfl
            simp only [List.cons.injEq, and_true] at this
            rw [← this]; exact hy
    · -- `run = pre ++ b`, `w ++ post = b ++ c :: rest`
      have hpre0 : pre = [] := hpre_in_run (fun x hx => by rw [hb1]; simp [hx])
      subst hpre0
      simp only [List.nil_append] at hb1
      subst hb1
      left
      rcases List.append_eq_append_iff.1 hb2 with ⟨a, ha1, ha2⟩ | ⟨d, hd1, hd2⟩
      · -- `run = w ++ a`, `post = a ++ c :: rest`
        cases a with
        | nil =>
          simp only [List.append_nil] at ha1
          subst ha1
          exact ⟨hw, rfl⟩
        | cons x a2 =>
          rcases hpost with h | ⟨y, q, hq, hy⟩
          · rw [h] at ha2; simp at ha2
          · rw [hq] at ha2
            simp only [List.cons_append, List.cons.injEq] at ha2
            have : x ∈ run := by rw [ha1]; simp
            rw [ha2.1, hrun x this] at hy
            exact absurd hy (by simp)
      · -- `w = run ++ d`, `c :: rest = d ++ post`
        cases d with
        | nil =>
          simp only [List.append_nil] at hd1
          subst hd1
          exact ⟨hw, rfl⟩
        | cons x d2 =>
          simp only [List.cons_append, List.cons.injEq] at hd2
          exact absurd (by rw [hd1, hd2.1]; simp) hcw
  · rintro (⟨hne, rfl⟩ | ⟨hw, hns, pre, post, hsplit, hpre, hpost⟩)
    · exact ⟨hne, hrun, [], c :: rest, by simp, Or.inl rfl, Or.inr ⟨c, rest, rfl, hc⟩⟩
    · refine ⟨hw, hns, run ++ c :: pre, post, by rw [hsplit]; simp, Or.inr ?_, hpost⟩
      rcases hpre with h | ⟨p, y, hp, hy⟩
      · exact ⟨run, c, by rw [h], hc⟩
      · exact ⟨run ++ c :: p, y, by rw [hp]; simp, hy⟩

theorem string_mk_inj (a b : List Char) : String.mk a = String.mk b ↔ a = b :=
  ⟨fun h => by injection h, fun h => by rw [h]⟩

theorem mem_scan_iff (cs : List Char) :
    ∀ run : List Char, (∀ x ∈ run, isSpace x = false) → ∀ w : List Char,
      (String.mk w) ∈ FindAllString.scan cs run ↔ IsMaximalRun (run ++ cs) w := by
  induction cs with
  | nil =>
    intro run hrun w
    rw [List.append_nil, maximalRun_of_no_space run w hrun]
    by_cases h : run = []
    · simp [FindAllString.scan, h]
    · simp [FindAllString.scan, h, string_mk_inj]
  | cons c rest ih =>
    intro run hrun w
    by_cases hc : isSpace c = true
    · rw [maximalRun_at_space run rest w c hrun hc]
      have ih0 := ih [] (by simp) w
      simp only [List.nil_append] at ih0
      by_cases h : run = []
      · simp [FindAllString.scan, hc, h, ih0]
      · simp [FindAllString.scan, hc, h, ih0, string_mk_inj]
    · have hc2 : isSpace c = false := by simpa using hc
      have := ih (run ++ [c]) (by
        intro x hx
        rcases List.mem_append.1 hx with h | h
        · exact hrun x h
        · rw [List.mem_singleton] at h; rw [h]; exact hc2) w
      simpa [FindAllString.scan, hc2] using this

theorem mem_FindAllString (Doc x : String) :
    x ∈ FindAllString Doc ↔ IsMaximalRun Doc.data x.data := by
  have := mem_scan_iff Doc.data [] (by simp) x.data
  simpa [FindAllString] using this

theorem mem_Tokenize (lower : Char → Char) (Doc t : String) :
    t ∈ Tokenize lower Doc ↔ ∃ w, IsMaximalRun Doc.data w ∧ t = ToLower lower ⟨w⟩ := by
  rw [Tokenize_eq]
  unfold RemoveDuplicates
  rw [uniqueLoop_snd_mem, List.mem_map]
  constructor
  · rintro ⟨x, hx, rfl⟩
    exact ⟨x.data, (mem_FindAllString Doc x).1 hx, rfl⟩
  · rintro ⟨w, hw, rfl⟩
    exact ⟨⟨w⟩, (mem_FindAllString Doc ⟨w⟩).2 hw, rfl⟩

/-- C10: the terms of `Tokenize Doc` are exactly the lowercase forms of the maximal runs of
non-whitespace characters of `Doc`; every term is non-empty, has no whitespace character and
is its own lowercase form.  Whitespace is the class `\s` of the regular expression. -/
theorem C10_tokenize_terms (lower : Char → Char)
    (hsp : ∀ c, isSpace (lower c) = isSpace c) (hid : ∀ c, lower (lower c) = lower c)
    (Doc : String) :
    (∀ t, t ∈ Tokenize lower Doc ↔ ∃ w, IsMaximalRun Doc.data w ∧ t = ToLower lower ⟨w⟩) ∧
    (∀ t ∈ Tokenize lower Doc,
      t ≠ "" ∧ (∀ c ∈ t.data, isSpace c = false) ∧ ToLower lower t = t) := by
  refine ⟨mem_Tokenize lower Doc, ?_⟩
  intro t ht
  obtain ⟨w, ⟨hw, hns, -⟩, rfl⟩ := (mem_Tokenize lower Doc t).1 ht
  refine ⟨?_, ?_, ToLower_idem lower hid _⟩
  · intro h
    have h2 : (ToLower lower ⟨w⟩).data = [] := by rw [h]
    simp only [ToLower, List.map_eq_nil_iff] at h2
    exact hw h2
  · intro c hc
    simp only [ToLower, List.mem_map] at hc
    obtain ⟨c2, hc2, rfl⟩ := hc
    rw [hsp, hns c2 hc2]

/-- C10 for the ASCII table on a document with punctuation, a tab and a repeated word. -/
theorem C10_tokenize_terms_witness :
    (∀ c, isSpace (Char.toLower c) = isSpace c) ∧
    (∀ c, Char.toLower (Char.toLower c) = Char.toLower c) ∧
    ((∀ t, t ∈ Tokenize Char.toLower "Hello, World!\t hello," ↔
        ∃ w, IsMaximalRun "Hello, World!\t hello,".data w ∧ t = ToLower Char.toLower ⟨w⟩) ∧
      (∀ t ∈ Tokenize Char.toLower "Hello, World!\t hello,",
        t ≠ "" ∧ (∀ c ∈ t.data, isSpace c = false) ∧ ToLower Char.toLower t = t)) ∧
    Tokenize Char.toLower "Hello, World!\t hello," = ["hello,", "world!"] :=
  ⟨isSpace_toLower, toLower_toLower,
   C10_tokenize_terms Char.toLower isSpace_toLower toLower_toLower "Hello, World!\t hello,",
   by decide⟩

/-! ## Empty results of the tokenizer -/

theorem scan_eq_nil (cs : List Char) :
    ∀ run : List Char, FindAllString.scan cs run = [] ↔
      run = [] ∧ ∀ c ∈ cs, isSpace c = true := by
  induction cs with
  | nil =>
    intro run
    by_cases h : run = [] <;> simp [FindAllString.scan, h]
  | cons c rest ih =>
    intro run
    by_cases hc : isSpace c = true
    · by_cases h : run = []
      · simp [FindAllString.scan, hc, h, ih []]
      · simp [FindAllString.scan, hc, h]
    · have hc2 : isSpace c = false := by simpa using hc
      simp [FindAllString.scan, hc2, ih (run ++ [c])]

theorem Tokenize_eq_nil (lower : Char → Char) (Doc : String) :
    Tokenize lower Doc = [] ↔ ∀ c ∈ Doc.data, isSpace c = true := by
  rw [Tokenize_eq]
  have h1 : RemoveDuplicates ((FindAllString Doc).map (ToLower lower)) = [] ↔
      (FindAllString Doc).map (ToLower lower) = [] := by
    rw [List.eq_nil_iff_forall_not_mem, List.eq_nil_iff_forall_not_mem]
    exact forall_congr' (fun x => not_congr (uniqueLoop_snd_mem _ x))
  rw [h1, List.map_eq_nil_iff]
  unfold FindAllString
  rw [scan_eq_nil]
  simp

/-- C11: `Tokenize` of the empty string is the empty list, `Tokenize Doc` is empty for every
`Doc` made of whitespace characters only, and it is non-empty as soon as `Doc` has a
non-whitespace character.  Whitespace is the class `\s` of the regular expression. -/
theorem C11_tokenize_empty (lower : Char → Char) :
    Tokenize lower "" = [] ∧
    (∀ Doc : String, (∀ c ∈ Doc.data, isSpace c = true) → Tokenize lower Doc = []) ∧
    (∀ Doc : String, (∃ c ∈ Doc.data, isSpace c = false) → Tokenize lower Doc ≠ []) := by
  refine ⟨?_, ?_, ?_⟩
  · exact (Tokenize_eq_nil lower "").2 (by simp)
  · intro Doc h
    exact (Tokenize_eq_nil lower Doc).2 h
  · rintro Doc ⟨c, hc, hsp⟩ h
    have := (Tokenize_eq_nil lower Doc).1 h c hc
    rw [hsp] at this
    exact absurd this (by simp)

/-- C11 on a document of blanks, tabs and line ends and on a document with one letter. -/
theorem C11_tokenize_empty_witness :
    (∀ c ∈ " \t\n \r\n".data, isSpace c = true) ∧
    Tokenize Char.toLower " \t\n \r\n" = [] ∧
    (∃ c ∈ " \t x\n".data, isSpace c = false) ∧
    Tokenize Char.toLower " \t x\n" ≠ [] ∧
    Tokenize Char.toLower " \t x\n" = ["x"] :=
  ⟨by decide,
   (C11_tokenize_empty Char.toLower).2.1 " \t\n \r\n" (by decide),
   by decide,
   (C11_tokenize_empty Char.toLower).2.2 " \t x\n" (by decide),
   by decide⟩

/-! ## The two branches of `AddItem` -/

theorem uniqueLoop_snd_prefix {α : Type} [DecidableEq α] (a b : List α) :
    (uniqueLoop a).2 <+: (uniqueLoop (a ++ b)).2 := by
  induction b using List.reverseRecOn with
  | nil => rw [List.append_nil]
  | append_singleton b x ih =>
    rw [← List.append_assoc, uniqueLoop_snd_snoc]
    by_cases hx : x ∈ a ++ b
    · rw [if_pos hx]; exact ih
    · rw [if_neg hx]; exact ih.trans (List.prefix_append _ _)

theorem uniqueLoop_fold {α : Type} [DecidableEq α] (l : List α) :
    ∀ keys acc seen : List α, (∀ x, x ∈ keys ↔ x ∈ seen) →
      (l.foldl (fun (st : List α × List α) entry =>
        if entry ∈ st.1 then st else (entry :: st.1, st.2 ++ [entry])) (keys, acc)).2 =
        acc ++ keepFirst seen l := by
  induction l with
  | nil => intro keys acc seen _; simp [keepFirst]
  | cons x rest ih =>
    intro keys acc seen h
    rw [List.foldl_cons]
    by_cases hx : x ∈ keys
    · rw [if_pos hx]
      have hx2 : x ∈ seen := (h x).1 hx
      rw [ih keys acc (seen ++ [x]) (by
        intro y
        rw [h y, List.mem_append, List.mem_singleton]
        constructor
        · exact Or.inl
        · rintro (hy | hy)
          · exact hy
          · rw [hy]; exact hx2)]
      simp only [keepFirst, if_pos hx2]
    · rw [if_neg hx]
      have hx2 : x ∉ seen := fun h2 => hx ((h x).2 h2)
      rw [ih (x :: keys) (acc ++ [x]) (seen ++ [x]) (by
        intro y
        rw [List.mem_cons, h y, List.mem_append, List.mem_singleton, or_comm])]
      simp only [keepFirst, if_neg hx2, List.append_assoc, List.singleton_append]

theorem uniqueLoop_snd_eq_keepFirst {α : Type} [DecidableEq α] (l : List α) :
    (uniqueLoop l).2 = keepFirst [] l := by
  have := uniqueLoop_fold l [] [] [] (fun _ => Iff.rfl)
  simpa [uniqueLoop] using this

theorem keepFirst_sublist {α : Type} [DecidableEq α] (l : List α) :
    ∀ seen : List α, (keepFirst seen l).Sublist l := by
  induction l with
  | nil => intro seen; simp [keepFirst]
  | cons x rest ih =>
    intro seen
    unfold keepFirst
    by_cases hx : x ∈ seen
    · rw [if_pos hx]; exact (ih _).cons x
    · rw [if_neg hx]; exact (ih _).cons₂ x

/-- C15: after any sequence of `AddItem` calls on the empty index the terms of the items are
`RemoveDuplicates` of the terms of the calls, and further calls only extend that sequence at
its end. -/
theorem C15_first_insertion_order :
    (∀ calls : List (String × Int),
      ∃ idx, AddItems CreateInvertedIndex calls = .ok idx ∧
        terms idx.Items = RemoveDuplicates (calls.map Prod.fst)) ∧
    (∀ calls more : List (String × Int),
      ∃ idx idx2, AddItems CreateInvertedIndex calls = .ok idx ∧
        AddItems CreateInvertedIndex (calls ++ more) = .ok idx2 ∧
        terms idx.Items <+: terms idx2.Items) ∧
    (∃ idx, AddItems CreateInvertedIndex [("b", 0), ("a", 0), ("b", 1), ("c", 1), ("a", 2)] =
        .ok idx ∧ terms idx.Items = ["b", "a", "c"]) := by
  refine ⟨?_, ?_, ?_⟩
  · intro calls
    obtain ⟨idx, h1, -, h3⟩ := AddItems_create calls
    exact ⟨idx, h1, by rw [h3, terms_itemsAfter]⟩
  · intro calls more
    obtain ⟨idx, h1, -, h3⟩ := AddItems_create calls
    obtain ⟨idx2, h4, -, h6⟩ := AddItems_create (calls ++ more)
    refine ⟨idx, idx2, h1, h4, ?_⟩
    rw [h3, h6, terms_itemsAfter, terms_itemsAfter, List.map_append]
    exact uniqueLoop_snd_prefix _ _
  · exact ⟨_, by rfl, by decide⟩

/-- C16: `RemoveDuplicates` returns a list without repetition that has the elements of its
argument, in the order of their first occurrence: it is the subsequence that keeps each
element where it first occurs.  On the empty list it returns the empty list, and on the
lowercased test list the nine expected words. -/
theorem C16_remove_duplicates :
    (∀ wordList : List String,
      (RemoveDuplicates wordList).Nodup ∧
      (∀ x, x ∈ RemoveDuplicates wordList ↔ x ∈ wordList) ∧
      (RemoveDuplicates wordList).Pairwise (fun a b => wordList.indexOf a < wordList.indexOf b) ∧
      (RemoveDuplicates wordList).Sublist wordList ∧
      RemoveDuplicates wordList = keepFirst [] wordList) ∧
    RemoveDuplicates [] = [] ∧
    RemoveDuplicates (Preprocessing Char.toLower wordListTest) =
      ["new", "home", "sales", "top", "forecasts", "rise", "in", "july", "increase"] := by
  refine ⟨?_, rfl, by decide⟩
  intro wordList
  refine ⟨uniqueLoop_snd_nodup _, uniqueLoop_snd_mem _, uniqueLoop_snd_order _, ?_,
    uniqueLoop_snd_eq_keepFirst _⟩
  unfold RemoveDuplicates
  rw [uniqueLoop_snd_eq_keepFirst]
  exact keepFirst_sublist _ _

/-- C17: `Preprocessing` keeps the length of the list and puts at every position the
lowercase form of the word at that position; on the empty list it returns the empty list,
and on the test list the expected lowercase list. -/
theorem C17_preprocessing :
    (∀ (lower : Char → Char) (wordList : List String),
      (Preprocessing lower wordList).length = wordList.length ∧
      ∀ i : Nat, (Preprocessing lower wordList)[i]? = (wordList[i]?).map (ToLower lower)) ∧
    (∀ lower : Char → Char, Preprocessing lower [] = []) ∧
    Preprocessing Char.toLower wordListTest =
      ["new", "home", "sales", "top", "forecasts",
       "home", "sales", "rise", "in", "july",
       "increase", "in", "home", "sales", "in",
       "july", "new", "home", "sales", "rise", "july"] := by
  refine ⟨?_, fun _ => rfl, by decide⟩
  intro lower wordList
  rw [Preprocessing_eq_map]
  exact ⟨List.length_map _ _, fun i => List.getElem?_map _ _ _⟩

/-! ## `FindItem` -/

theorem lt_length_of_getElem? {α : Type} (l : List α) (i : Nat) (a : α) (h : l[i]? = some a) :
    i < l.length := by
  by_contra hge
  rw [List.getElem?_eq_none (by omega)] at h
  exact absurd h (by simp)

theorem nodup_postings_of_nodup (calls : List (String × Int)) (t : String) (h : calls.Nodup) :
    (postings calls t).Nodup := by
  unfold postings
  refine List.Nodup.map_on ?_ (h.filter _)
  intro x hx y hy hxy
  simp only [List.mem_filter, decide_eq_true_eq] at hx hy
  exact Prod.ext (hx.2.trans hy.2.symm) hxy

theorem entry_of_mem_itemsAfter (calls : List (String × Int)) (e : InvertedIndexEntry)
    (he : e ∈ itemsAfter calls) :
    e.Term ∈ calls.map Prod.fst ∧
      e = ⟨e.Term, ((postings calls e.Term).length : Int), postings calls e.Term⟩ := by
  have hmem : e ∈ entriesOf (itemsAfter calls) e.Term := (mem_entriesOf _ _ _).2 ⟨he, rfl⟩
  rw [entriesOf_itemsAfter] at hmem
  by_cases hin : e.Term ∈ calls.map Prod.fst
  · rw [if_pos hin, List.mem_singleton] at hmem
    exact ⟨hin, hmem⟩
  · rw [if_neg hin] at hmem
    exact absurd hmem (List.not_mem_nil _)

theorem AddItem_keeps_frequency (idx next : InvertedIndex) (t : String) (d : Int)
    (h : AddItem idx t d = .ok next)
    (hfreq : ∀ e ∈ idx.Items, e.Frequency = (e.DocumentListing.length : Int)) :
    ∀ e ∈ next.Items, e.Frequency = (e.DocumentListing.length : Int) := by
  unfold AddItem at h
  by_cases hs : (mapGet idx.HashMap t).isSome = true
  · rw [if_pos hs] at h
    cases hf : FindItem idx t with
    | error msg => rw [hf] at h; simp at h
    | ok pos =>
      rw [hf] at h
      dsimp only at h
      cases hi : idx.Items[pos]? with
      | none => rw [hi] at h; simp at h
      | some item =>
        rw [hi] at h
        have hn := Except.ok.inj h
        intro e he
        rw [← hn] at he
        rcases List.mem_or_eq_of_mem_set he with he2 | he2
        · exact hfreq e he2
        · have := hfreq item (List.mem_iff_getElem?.2 ⟨pos, hi⟩)
          rw [he2]
          simp only [List.length_append, List.length_singleton, Nat.cast_add, Nat.cast_one, this]
  · rw [if_neg hs] at h
    cases hm : idx.HashMap with
    | none => rw [hm] at h; simp at h
    | some bindings =>
      rw [hm] at h
      have hn := Except.ok.inj h
      intro e he
      rw [← hn] at he
      rcases List.mem_append.1 he with he2 | he2
      · exact hfreq e he2
      · rw [List.mem_singleton] at he2
        rw [he2]; rfl

/-- C19: after any sequence of `AddItem` calls on the empty index, the entry of a term that
was added lists the documents of the calls for that term in call order, and every frequency
is the length of the listing; when no pair of term and document is added twice the listings
have no repetition and the frequency is the number of distinct documents added for the term.
`AddItem` keeps the equality of frequency and listing length: on every index whatever, when
it returns, and it does return on an index that satisfies the invariant and whose hash map is
allocated and binds no key to nil. -/
theorem C19_listing_in_call_order :
    (∀ calls : List (String × Int),
      ∃ idx, AddItems CreateInvertedIndex calls = .ok idx ∧
        (∀ t, t ∈ calls.map Prod.fst →
          ∃ e, entriesOf idx.Items t = [e] ∧
            e.DocumentListing = (calls.filter (fun c => decide (c.1 = t))).map Prod.snd ∧
            e.Frequency = (e.DocumentListing.length : Int)) ∧
        (∀ e ∈ idx.Items, e.Frequency = (e.DocumentListing.length : Int)) ∧
        (calls.Nodup → ∀ e ∈ idx.Items,
          e.DocumentListing.Nodup ∧
          e.Frequency =
            (((calls.filter (fun c => decide (c.1 = e.Term))).map Prod.snd).toFinset.card :
              Int))) ∧
    (∀ (idx : InvertedIndex) (t : String) (d : Int), IndexInvariant idx → HashMapSound idx →
      (∀ e ∈ idx.Items, e.Frequency = (e.DocumentListing.length : Int)) →
      ∃ next, AddItem idx t d = .ok next ∧
        ∀ e ∈ next.Items, e.Frequency = (e.DocumentListing.length : Int)) ∧
    (∀ (idx next : InvertedIndex) (t : String) (d : Int), AddItem idx t d = .ok next →
      (∀ e ∈ idx.Items, e.Frequency = (e.DocumentListing.length : Int)) →
      ∀ e ∈ next.Items, e.Frequency = (e.DocumentListing.length : Int)) := by
  refine ⟨?_, ?_, fun idx next t d h hfreq => AddItem_keeps_frequency idx next t d h hfreq⟩
  · intro calls
    obtain ⟨idx, h1, -, h3⟩ := AddItems_create calls
    refine ⟨idx, h1, ?_, ?_, ?_⟩
    · intro t ht
      refine ⟨⟨t, ((postings calls t).length : Int), postings calls t⟩, ?_, rfl, rfl⟩
      rw [h3, entriesOf_itemsAfter, if_pos ht]
    · intro e he
      rw [h3] at he
      have := (entry_of_mem_itemsAfter calls e he).2
      rw [this]
    · intro hnd e he
      rw [h3] at he
      have h4 := (entry_of_mem_itemsAfter calls e he).2
      have h5 := nodup_postings_of_nodup calls e.Term hnd
      have h6 : e.DocumentListing = postings calls e.Term := by rw [h4]
      have h7 : e.Frequency = ((postings calls e.Term).length : Int) := by rw [h4]
      refine ⟨by rw [h6]; exact h5, ?_⟩
      rw [h7, List.toFinset_card_of_nodup]
      · rfl
      · exact h5
  · intro idx t d hI hS hfreq
    obtain ⟨next, h1, -, -⟩ := AddItem_of_agree idx (agree_of_invariant idx hI hS) t d
    exact ⟨next, h1, AddItem_keeps_frequency idx next t d h1 hfreq⟩

/-- C19 on five calls without a repeated pair. -/
theorem C19_listing_in_call_order_witness :
    "home" ∈ [("home", (4 : Int)), ("sales", 4), ("home", 2), ("sales", 9), ("home", 7)].map
      Prod.fst ∧
    [("home", (4 : Int)), ("sales", 4), ("home", 2), ("sales", 9), ("home", 7)].Nodup ∧
    ∃ idx, AddItems CreateInvertedIndex
        [("home", 4), ("sales", 4), ("home", 2), ("sales", 9), ("home", 7)] = .ok idx ∧
      idx.Items = [⟨"home", 3, [4, 2, 7]⟩, ⟨"sales", 2, [4, 9]⟩] ∧
      (∃ e, entriesOf idx.Items "home" = [e] ∧
        e.DocumentListing =
          ([("home", (4 : Int)), ("sales", 4), ("home", 2), ("sales", 9), ("home", 7)].filter
            (fun c => decide (c.1 = "home"))).map Prod.snd ∧
        e.Frequency = (e.DocumentListing.length : Int)) ∧
      (∀ e ∈ idx.Items,
        e.DocumentListing.Nodup ∧
        e.Frequency =
          ((([("home", (4 : Int)), ("sales", 4), ("home", 2), ("sales", 9), ("home", 7)].filter
            (fun c => decide (c.1 = e.Term))).map Prod.snd).toFinset.card : Int)) := by
  have hin : "home" ∈
      [("home", (4 : Int)), ("sales", 4), ("home", 2), ("sales", 9), ("home", 7)].map
        Prod.fst := by decide
  have hnd : [("home", (4 : Int)), ("sales", 4), ("home", 2), ("sales", 9), ("home", 7)].Nodup :=
    by decide
  obtain ⟨idx, h1, h2, -, h4⟩ := C19_listing_in_call_order.1
    [("home", 4), ("sales", 4), ("home", 2), ("sales", 9), ("home", 7)]
  have hidx : idx = ⟨some [("sales", some 1), ("home", some 0)],
      [⟨"home", 3, [4, 2, 7]⟩, ⟨"sales", 2, [4, 9]⟩]⟩ := (Except.ok.inj h1).symm
  exact ⟨hin, hnd, idx, h1, by rw [hidx], h2 "home" hin, h4 hnd⟩

theorem callsWithIds_cons (kv : Int × List String) (rest : List (Int × List String)) :
    callsWithIds (kv :: rest) = kv.2.map (fun x => (x, kv.1)) ++ callsWithIds rest := by
  simp [callsWithIds, List.flatMap_cons]

theorem length_postings_callsWithIds (order : List (Int × List String)) (t : String) :
    (postings (callsWithIds order) t).length = (order.map (fun kv => kv.2.count t)).sum := by
  induction order with
  | nil => simp [callsWithIds, postings]
  | cons kv rest ih =>
    rw [callsWithIds_cons, postings_append, postings_map_pair, List.length_append,
      List.length_replicate, ih, List.map_cons, List.sum_cons]

theorem count_le_one_of_nodup_postings (order : List (Int × List String)) (t : String)
    (h : (postings (callsWithIds order) t).Nodup) : ∀ kv ∈ order, kv.2.count t ≤ 1 := by
  induction order with
  | nil => intro kv hkv; exact absurd hkv (List.not_mem_nil _)
  | cons kv rest ih =>
    rw [callsWithIds_cons, postings_append, postings_map_pair] at h
    have h2 := List.nodup_append.1 h
    intro kv2 hkv2
    rcases List.mem_cons.1 hkv2 with h3 | h3
    · rw [h3]; exact List.nodup_replicate.1 h2.1
    · exact ih h2.2.1 kv2 h3

theorem nodup_of_uniqueLoop_length {α : Type} [DecidableEq α] (l : List α)
    (h : (uniqueLoop l).2.length = l.length) : l.Nodup := by
  induction l using List.reverseRecOn with
  | nil => exact List.nodup_nil
  | append_singleton l x ih =>
    rw [uniqueLoop_snd_snoc] at h
    by_cases hx : x ∈ l
    · rw [if_pos hx] at h
      have := uniqueLoop_snd_length_le l
      simp only [List.length_append, List.length_singleton] at h
      omega
    · rw [if_neg hx] at h
      simp only [List.length_append, List.length_singleton, Nat.add_right_cancel_iff] at h
      refine List.Nodup.append (ih h) (List.nodup_singleton x) ?_
      intro a ha ha2
      rw [List.mem_singleton] at ha2
      rw [ha2] at ha
      exact hx ha

/-- C20: in the index built from a map `Docs`, the frequency of the entry of a term is the
number of occurrences of the term in all term sequences, counted with multiplicity, and it
equals the length of the document listing exactly when no term sequence contains the term
more than once. -/
theorem C20_frequency_counts_occurrences
    (range : List (Int × List String) → List (Int × List String))
    (Docs : List (Int × List String)) (hmap : DocsMap Docs) (hrange : (range Docs).Perm Docs) :
    ∃ idx, GenerateInvertedIndexWithPreExistingIds range Docs = .ok idx ∧
      ∀ t : String, (∃ k v, docsGet Docs k = some v ∧ t ∈ v) →
        ∃ e, entriesOf idx.Items t = [e] ∧
          e.Frequency = (((Docs.map (fun kv => kv.2.count t)).sum : Nat) : Int) ∧
          (e.Frequency = (e.DocumentListing.length : Int) ↔
            ∀ kv ∈ Docs, kv.2.count t ≤ 1) := by
  obtain ⟨idx, h1, -, h3⟩ := withIds_entriesOf range Docs
  refine ⟨idx, h1, ?_⟩
  rintro t ⟨k, v, hv, htv⟩
  have hin : t ∈ (callsWithIds (range Docs)).map Prod.fst :=
    (mem_map_fst_iff _ _).2 ⟨k, (mem_callsWithIds _ _ _).2
      ⟨v, hrange.mem_iff.2 ((docsGet_eq_some Docs hmap k v).1 hv), htv⟩⟩
  refine ⟨_, by rw [h3 t, if_pos hin], ?_, ?_⟩
  · simp only
    rw [length_postings_callsWithIds,
      (hrange.map (fun kv : Int × List String => kv.2.count t)).sum_eq]
  · simp only [RemoveDuplicateListings]
    constructor
    · intro heq
      have hlen : (uniqueLoop (postings (callsWithIds (range Docs)) t)).2.length =
          (postings (callsWithIds (range Docs)) t).length := by exact_mod_cast heq.symm
      have hnd := nodup_of_uniqueLoop_length _ hlen
      intro kv hkv
      exact count_le_one_of_nodup_postings _ t hnd kv (hrange.mem_iff.2 hkv)
    · intro hc
      have hnd : (postings (callsWithIds (range Docs)) t).Nodup := by
        apply nodup_postings_callsWithIds
        · exact ((hrange.map Prod.fst).nodup_iff).2 hmap
        · intro kv hkv
          exact hc kv (hrange.mem_iff.1 hkv)
      rw [uniqueLoop_snd_of_nodup _ hnd]

/-- C20 on a map in which document 1 repeats `a`: the frequency of `a` is 3 and its listing
has two documents; the frequency of `b` is 1, the length of its listing. -/
theorem C20_frequency_counts_occurrences_witness :
    DocsMap [(1, ["a", "a"]), (2, ["a", "b"])] ∧
    (∃ k v, docsGet [(1, ["a", "a"]), (2, ["a", "b"])] k = some v ∧ "a" ∈ v) ∧
    ∃ idx, GenerateInvertedIndexWithPreExistingIds (fun m => m)
        [(1, ["a", "a"]), (2, ["a", "b"])] = .ok idx ∧
      idx.Items = [⟨"a", 3, [1, 2]⟩, ⟨"b", 1, [2]⟩] ∧
      ∃ e, entriesOf idx.Items "a" = [e] ∧
        e.Frequency =
          ((([((1 : Int), ["a", "a"]), (2, ["a", "b"])].map
            (fun kv => kv.2.count "a")).sum : Nat) : Int) ∧
        (e.Frequency = (e.DocumentListing.length : Int) ↔
          ∀ kv ∈ [((1 : Int), ["a", "a"]), (2, ["a", "b"])], kv.2.count "a" ≤ 1) := by
  have hmap : DocsMap [(1, ["a", "a"]), (2, ["a", "b"])] := by unfold DocsMap; decide
  have hocc : ∃ k v, docsGet [(1, ["a", "a"]), (2, ["a", "b"])] k = some v ∧ "a" ∈ v :=
    ⟨1, ["a", "a"], by rfl, by decide⟩
  obtain ⟨idx, h1, h2⟩ := C20_frequency_counts_occurrences (fun m => m)
    [(1, ["a", "a"]), (2, ["a", "b"])] hmap (List.Perm.refl _)
  have hidx : idx = ⟨some [("b", some 1), ("a", some 0)], [⟨"a", 3, [1, 2]⟩, ⟨"b", 1, [2]⟩]⟩ :=
    (Except.ok.inj h1).symm
  exact ⟨hmap, hocc, idx, h1, by rw [hidx], h2 "a" hocc⟩

/-! ## `AddItem` on an index that was not built by `AddItem` calls -/

/-- C12 fails as stated: the zero-value index, whose map is nil, satisfies the invariant and
does not hold `a`, and `AddItem` panics on it. -/
theorem C12_add_new_term_counterexample :
    IndexInvariant ⟨none, []⟩ ∧
    "a" ∉ terms (⟨none, []⟩ : InvertedIndex).Items ∧
    mapHas (⟨none, []⟩ : InvertedIndex).HashMap "a" = false ∧
    AddItem ⟨none, []⟩ "a" 0 = .error "assignment to entry in nil map" := by
  refine ⟨⟨?_, by simp [terms]⟩, by simp [terms], rfl, rfl⟩
  intro t
  simp [mapHas, terms]

/-- C12, amended: on an index with an allocated hash map that satisfies the invariant,
`AddItem` of a term that is not present returns normally, keeps every item in place, appends
the one entry with frequency 1 and the given document, and binds the term in the hash map to
an entry, the other bindings being unchanged. -/
theorem C12_add_new_term (idx : InvertedIndex) (t : String) (d : Int)
    (hI : IndexInvariant idx) (hM : idx.HashMap ≠ none) (ht : t ∉ terms idx.Items) :
    ∃ next, AddItem idx t d = .ok next ∧
      next.Items = idx.Items ++ [⟨t, 1, [d]⟩] ∧
      (∀ (i : Nat) (e : InvertedIndexEntry), idx.Items[i]? = some e → next.Items[i]? = some e) ∧
      next.Items.length = idx.Items.length + 1 ∧
      mapHas next.HashMap t = true ∧
      (mapGet next.HashMap t).isSome = true ∧
      (∀ t2, t2 ≠ t → mapGet next.HashMap t2 = mapGet idx.HashMap t2 ∧
        mapHas next.HashMap t2 = mapHas idx.HashMap t2) := by
  obtain ⟨bindings, hb⟩ : ∃ bindings, idx.HashMap = some bindings := by
    cases h : idx.HashMap with
    | none => exact absurd h hM
    | some bindings => exact ⟨bindings, rfl⟩
  have hnot : ¬ (mapGet idx.HashMap t).isSome = true := fun hs =>
    ht ((hI.1 t).1 (mapHas_of_mapGet _ _ hs))
  refine ⟨⟨some (mapSet bindings t (some idx.Items.length)), idx.Items ++ [⟨t, 1, [d]⟩]⟩, ?_,
    rfl, ?_, ?_, ?_, ?_, ?_⟩
  · unfold AddItem
    rw [if_neg hnot, hb]
  · intro i e hi
    have hlt : i < idx.Items.length := lt_length_of_getElem? _ _ _ hi
    simp only
    rw [List.getElem?_append_left hlt]
    exact hi
  · simp
  · simp [mapHas_set]
  · simp [mapGet_set]
  · intro t2 h2
    have : ¬ t = t2 := fun h => h2 h.symm
    simp only [mapGet_set, mapHas_set, if_neg this, hb, and_self]

/-- C12, amended, on the index that holds `home`: adding `sales` for document 3. -/
theorem C12_add_new_term_witness :
    IndexInvariant ⟨some [("home", some 0)], [⟨"home", 1, [0]⟩]⟩ ∧
    (⟨some [("home", some 0)], [⟨"home", 1, [0]⟩]⟩ : InvertedIndex).HashMap ≠ none ∧
    "sales" ∉ terms [⟨"home", 1, [0]⟩] ∧
    AddItem ⟨some [("home", some 0)], [⟨"home", 1, [0]⟩]⟩ "sales" 3 =
      .ok ⟨some [("sales", some 1), ("home", some 0)],
        [⟨"home", 1, [0]⟩, ⟨"sales", 1, [3]⟩]⟩ ∧
    ∃ next, AddItem ⟨some [("home", some 0)], [⟨"home", 1, [0]⟩]⟩ "sales" 3 = .ok next ∧
      next.Items = [⟨"home", 1, [0]⟩] ++ [⟨"sales", 1, [3]⟩] ∧
      (∀ (i : Nat) (e : InvertedIndexEntry),
        [(⟨"home", 1, [0]⟩ : InvertedIndexEntry)][i]? = some e → next.Items[i]? = some e) ∧
      next.Items.length = [(⟨"home", 1, [0]⟩ : InvertedIndexEntry)].length + 1 ∧
      mapHas next.HashMap "sales" = true ∧
      (mapGet next.HashMap "sales").isSome = true ∧
      (∀ t2, t2 ≠ "sales" →
        mapGet next.HashMap t2 = mapGet (some [("home", some 0)]) t2 ∧
        mapHas next.HashMap t2 = mapHas (some [("home", some 0)]) t2) := by
  have hI : IndexInvariant ⟨some [("home", some 0)], [⟨"home", 1, [0]⟩]⟩ := by
    constructor
    · intro t
      by_cases h : "home" = t
      · simp [mapHas, mapFind, terms, h]
      · have h2 : ¬ t = "home" := fun h3 => h h3.symm
        simp [mapHas, mapFind, terms, h, h2]
    · simp [terms]
  have ht : "sales" ∉ terms [(⟨"home", 1, [0]⟩ : InvertedIndexEntry)] := by decide
  exact ⟨hI, by simp, ht, by rfl,
    C12_add_new_term ⟨some [("home", some 0)], [⟨"home", 1, [0]⟩]⟩ "sales" 3 hI (by simp) ht⟩

end invertedindex
